import Mathlib

/-
Verification of the zero-copy JSON value model of `serde-zero-copy`
(`src/serde-zero-copy/src/lib.rs`) and the ownership-erasure demo that
consumes it (`src/hyper-zero-copy/src/bin/main.rs`).

The embedding models:
  * the `Value<'a>` tagged union (borrowed string/byte leaves carry the
    aliased address range `off/len` together with the pointed-at content,
    which is what a Rust fat pointer plus the frozen input buffer denote);
  * the `Deserialize` visitor (`ValueVisitor`, `KeyClassifier`) translated
    arm by arm from the source, including the `panic!()` in
    `ValueVisitor::expecting` (lib.rs:100-103), modelled by the
    `DOut.panicked` outcome;
  * the `Serialize` impl translated arm by arm, with the serializer policy
    for `Bytes` leaves taken from the spec (validate as UTF-8, fail if
    invalid);
  * the external serde_json front-ends as spec-modelled token producers
    (`tokN` for the borrowing `serde_json_nostr` route that feeds escaped
    scalars to `visit_bytes`, `tokC` for the copying `serde_json` route
    that feeds them to `visit_str`), and the standard copying JSON reader
    used for semantic comparison (`readDoc`).

Machine integers are Nat/Int with explicit range conditions; `f64` is an
opaque pair of a finiteness flag and a payload, which is exactly the
granularity at which the source inspects floats (`Number::from_f64`).
-/

namespace SerdeZeroCopy

/-! UTF-8 byte-level model: encoding of scalar values, strict decoding
    (as in Rust `str::from_utf8`, rejecting overlong forms, surrogates and
    out-of-range values), and lossy decoding (`String::from_utf8_lossy`,
    invalid sequences replaced by U+FFFD). -/

/-- UTF-8 encoding of one Unicode scalar value (1-4 bytes). -/
def encChar (n : Nat) : List Nat :=
  if n < 0x80 then [n]
  else if n < 0x800 then [0xC0 + n / 64, 0x80 + n % 64]
  else if n < 0x10000 then
    [0xE0 + n / 4096, 0x80 + (n / 64) % 64, 0x80 + n % 64]
  else
    [0xF0 + n / 0x40000, 0x80 + (n / 4096) % 64, 0x80 + (n / 64) % 64, 0x80 + n % 64]

/-- UTF-8 encoding of a character sequence. -/
def utf8Encode : List Char → List Nat
  | [] => []
  | c :: cs => encChar c.toNat ++ utf8Encode cs

/-- Decode one UTF-8 sequence from the front of a byte list, returning the
    scalar value and the number of bytes consumed; `none` on any invalid,
    overlong, surrogate or truncated sequence (Rust `str::from_utf8`
    validity rules). -/
def decode1 : List Nat → Option (Nat × Nat)
  | [] => none
  | b0 :: rest =>
    if b0 < 0x80 then some (b0, 1)
    else if b0 < 0xC2 then none
    else if b0 < 0xE0 then
      match rest with
      | b1 :: _ =>
        if 0x80 ≤ b1 ∧ b1 < 0xC0 then some ((b0 - 0xC0) * 64 + (b1 - 0x80), 2)
        else none
      | [] => none
    else if b0 < 0xF0 then
      match rest with
      | b1 :: b2 :: _ =>
        if 0x80 ≤ b1 ∧ b1 < 0xC0 ∧ 0x80 ≤ b2 ∧ b2 < 0xC0 then
          if (b0 - 0xE0) * 4096 + (b1 - 0x80) * 64 + (b2 - 0x80) < 0x800 ∨
             (0xD800 ≤ (b0 - 0xE0) * 4096 + (b1 - 0x80) * 64 + (b2 - 0x80) ∧
              (b0 - 0xE0) * 4096 + (b1 - 0x80) * 64 + (b2 - 0x80) < 0xE000) then none
          else some ((b0 - 0xE0) * 4096 + (b1 - 0x80) * 64 + (b2 - 0x80), 3)
        else none
      | _ => none
    else if b0 < 0xF5 then
      match rest with
      | b1 :: b2 :: b3 :: _ =>
        if 0x80 ≤ b1 ∧ b1 < 0xC0 ∧ 0x80 ≤ b2 ∧ b2 < 0xC0 ∧ 0x80 ≤ b3 ∧ b3 < 0xC0 then
          if (b0 - 0xF0) * 0x40000 + (b1 - 0x80) * 4096 + (b2 - 0x80) * 64 + (b3 - 0x80) < 0x10000 ∨
             0x110000 ≤ (b0 - 0xF0) * 0x40000 + (b1 - 0x80) * 4096 + (b2 - 0x80) * 64 + (b3 - 0x80) then
            none
          else some ((b0 - 0xF0) * 0x40000 + (b1 - 0x80) * 4096 + (b2 - 0x80) * 64 + (b3 - 0x80), 4)
        else none
      | _ => none
    else none

/-- Strict UTF-8 decoding loop, fuelled by the byte count (each step
    consumes at least one byte, so `bs.length` fuel always suffices). -/
def decAux : Nat → List Nat → Option (List Char)
  | _, [] => some []
  | 0, _ :: _ => none
  | f + 1, b :: tl =>
    match decode1 (b :: tl) with
    | none => none
    | some (n, k) => (decAux f ((b :: tl).drop k)).map (fun cs => Char.ofNat n :: cs)

/-- Model of Rust `str::from_utf8` / `String::from_utf8`: strict validation. -/
def utf8Dec? (bs : List Nat) : Option (List Char) := decAux bs.length bs

/-- Lossy UTF-8 decoding loop: invalid sequences yield U+FFFD and skip a byte. -/
def lossyAux : Nat → List Nat → List Char
  | _, [] => []
  | 0, _ :: _ => []
  | f + 1, b :: tl =>
    match decode1 (b :: tl) with
    | some (n, k) => Char.ofNat n :: lossyAux f ((b :: tl).drop k)
    | none => Char.ofNat 0xFFFD :: lossyAux f tl

/-- Model of Rust `String::from_utf8_lossy(..).into_owned()`. -/
def utf8LossyStr (bs : List Nat) : String := String.mk (lossyAux bs.length bs)

/-! Numbers. `f64` is modelled opaquely: a finiteness flag plus a payload
    standing for the bit pattern; the source only ever branches on
    finiteness (`serde_json::Number::from_f64`). -/

/-- Opaque model of an `f64` value: finiteness flag plus payload. -/
structure F64 where
  finite : Bool
  payload : Int
deriving DecidableEq

/-- Model of the finite `f64` a JSON parser produces for an integer literal
    outside the 64-bit ranges (value approximation is abstracted). -/
def F64.ofInt (i : Int) : F64 := ⟨true, i⟩

/-- Model of `serde_json::Number`: unsigned 64-bit, signed (negative)
    64-bit, or finite `f64`. -/
inductive Number where
  | posInt (n : Nat)
  | negInt (i : Int)
  | float (f : F64)
deriving DecidableEq

/-- Model of `impl From<i64> for Number`: negative values stored signed,
    non-negative stored unsigned. -/
def numberOfI64 (i : Int) : Number :=
  if i < 0 then .negInt i else .posInt i.toNat

/-- Model of `serde_json::Number::from_f64`: `none` for non-finite floats. -/
def numberFromF64 (f : F64) : Option Number :=
  if f.finite then some (.float f) else none

/-- Numeric payload of a JSON number token in the input document. -/
inductive JNum where
  | jint (i : Int)
  | jflt (f : F64)
deriving DecidableEq

/-! String tokens as delivered by the serde front-end to the visitor.
    A borrowed token is a contiguous unescaped range of the input buffer
    (address range `off/len` plus the pointed-at text); a copied token is
    the transient unescape result, delivered either as `&str`
    (`visit_str`, copying `serde_json` route) or as bytes (`visit_bytes`,
    `serde_json_nostr` route). -/

inductive StrTok where
  | borrowed (off len : Nat) (s : String)
  | copiedStr (s : String)
  | copiedBytes (bs : List Nat)
deriving DecidableEq

/-- Model of a Rust `&'a str` into the input buffer: address range plus
    pointed-at text. -/
structure BStr where
  off : Nat
  len : Nat
  s : String
deriving DecidableEq

/-! Structural parse events (spec §4.1: "a token-level JSON parse"). These
    are the visitor callbacks serde_json issues for one JSON document,
    in tree form since decoding always consumes a fully parsed value. -/

mutual
inductive Ev where
  | evNull
  | evBool (b : Bool)
  | evI64 (i : Int)
  | evU64 (n : Nat)
  | evF64 (f : F64)
  | evStr (t : StrTok)
  | evBytes (off len : Nat) (bs : List Nat)
  | evArr (xs : EvList)
  | evObj (es : EvEntries)
inductive EvList where
  | nil
  | cons (e : Ev) (tl : EvList)
inductive EvEntries where
  | nil
  | cons (k : StrTok) (v : Ev) (tl : EvEntries)
end

deriving instance DecidableEq for Ev, EvList, EvEntries

/-! The `Value<'a>` tagged union (lib.rs:51-62). `Object` is a
    `BTreeMap<&'a str, Value<'a>>`, modelled as a key-sorted entry list. -/

mutual
inductive Val where
  | null
  | bool (b : Bool)
  | num (n : Number)
  | bytes (off len : Nat) (bs : List Nat)
  | str (b : BStr)
  | ownedString (s : String)
  | array (xs : VList)
  | object (m : VEntries)
inductive VList where
  | nil
  | cons (v : Val) (tl : VList)
inductive VEntries where
  | nil
  | cons (k : BStr) (v : Val) (tl : VEntries)
end

deriving instance DecidableEq for Val, VList, VEntries

/-! Decoder outcomes. Rust distinguishes returning `Err(DecodeError)` from
    panicking; `DOut.panicked` models the abnormal-termination signal. -/

/-- Model of serde decode errors relevant to this visitor. -/
inductive DErr where
  | invalidType (expected : String)
deriving DecidableEq

/-- Outcome of running decoding code: value, recoverable error, or panic. -/
inductive DOut (α : Type) where
  | ok (a : α)
  | err (e : DErr)
  | panicked
deriving DecidableEq

/-- Result of running a `Visitor::expecting` formatting hook. -/
inductive FmtRes where
  | wrote (s : String)
  | panicked
deriving DecidableEq

/-- Model of `ValueVisitor::expecting` (lib.rs:100-103): the body executes
    `panic!()` before ever reaching `formatter.write_str("any valid JSON value")`. -/
def valueVisitorExpecting : FmtRes := .panicked

/-- Model of `KeyClassifier::expecting` (lib.rs:39-41): writes "a string key". -/
def keyClassifierExpecting : FmtRes := .wrote "a string key"

/-- Model of constructing serde's `invalid_type` error: serde_json formats
    the error message eagerly, which runs the visitor's `expecting` hook;
    if that hook panics, the whole decode panics. -/
def invalidTypeErr (α : Type) (exp : FmtRes) : DOut α :=
  match exp with
  | .panicked => .panicked
  | .wrote s => .err (.invalidType s)

/-- Model of `KeyClassifier` (lib.rs:19-49): only `visit_borrowed_str` is
    implemented, so a borrowed key token classifies as a map key and any
    copied token falls to the default visitor methods, which build an
    `invalid_type` error whose message formats `expecting` ("a string key"). -/
def classifyKey : StrTok → DOut BStr
  | .borrowed off len s => .ok ⟨off, len, s⟩
  | .copiedStr _ => invalidTypeErr BStr keyClassifierExpecting
  | .copiedBytes _ => invalidTypeErr BStr keyClassifierExpecting

/-- Model of `<&'de str as Deserialize>::deserialize`, used by
    `visitor.next_entry()` for every key after the first (lib.rs:193):
    succeeds only on borrowed tokens, with serde's "a borrowed string"
    expectation message otherwise. -/
def borrowKeyStr : StrTok → DOut BStr
  | .borrowed off len s => .ok ⟨off, len, s⟩
  | .copiedStr _ => .err (.invalidType "a borrowed string")
  | .copiedBytes _ => .err (.invalidType "a borrowed string")

/-- Lexicographic comparison of character sequences by scalar value: the
    order Rust's `Ord for str` induces (byte-lexicographic on UTF-8 agrees
    with scalar-value-lexicographic). -/
def ltChars : List Char → List Char → Bool
  | [], [] => false
  | [], _ :: _ => true
  | _ :: _, [] => false
  | c :: cs, d :: ds =>
    if c.toNat < d.toNat then true
    else if d.toNat < c.toNat then false
    else ltChars cs ds

/-- Strict order on strings, as `BTreeMap<&str, _>` orders its keys. -/
def ltStr (s t : String) : Bool := ltChars s.data t.data

/-- Model of `BTreeMap::insert` on the key-sorted entry list: keys ordered
    by string content; on an equal key the stored key is kept and the
    value is replaced. -/
def mapIns : VEntries → BStr → Val → VEntries
  | .nil, k, v => .cons k v .nil
  | .cons k₁ v₁ tl, k, v =>
    if ltStr k.s k₁.s then .cons k v (.cons k₁ v₁ tl)
    else if ltStr k₁.s k.s then .cons k₁ v₁ (mapIns tl k v)
    else .cons k₁ v tl

/-! The decode visitor (`impl Deserialize for Value`, lib.rs:86-203),
    translated arm by arm. -/

mutual
/-- Model of `ValueVisitor`'s dispatch over one parse event:
    `visit_unit`/`visit_none` (Null), `visit_bool`, `visit_i64`,
    `visit_u64`, `visit_f64` (non-finite to Null), `visit_borrowed_str`
    (borrowed String), `visit_bytes` (lossy owned copy),
    `visit_borrowed_bytes` (borrowed Bytes), `visit_seq`, `visit_map`.
    A copied `&str` event hits no implemented method, so the default
    `visit_str` builds `invalid_type`, whose message formats
    `ValueVisitor::expecting` — which panics. -/
def decodeEv : Ev → DOut Val
  | .evNull => .ok .null
  | .evBool b => .ok (.bool b)
  | .evI64 i => .ok (.num (numberOfI64 i))
  | .evU64 n => .ok (.num (.posInt n))
  | .evF64 f =>
    match numberFromF64 f with
    | some n => .ok (.num n)
    | none => .ok .null
  | .evStr (.borrowed off len s) => .ok (.str ⟨off, len, s⟩)
  | .evStr (.copiedStr _) => invalidTypeErr Val valueVisitorExpecting
  | .evStr (.copiedBytes bs) => .ok (.ownedString (utf8LossyStr bs))
  | .evBytes off len bs => .ok (.bytes off len bs)
  | .evArr xs =>
    match decodeList xs with
    | .ok l => .ok (.array l)
    | .err e => .err e
    | .panicked => .panicked
  | .evObj .nil => .ok (.object .nil)
  | .evObj (.cons k ve rest) =>
    match classifyKey k with
    | .ok key =>
      match decodeEv ve with
      | .ok v => decodeEntries (mapIns .nil key v) rest
      | .err e => .err e
      | .panicked => .panicked
    | .err e => .err e
    | .panicked => .panicked
/-- Model of the `visit_seq` element loop (lib.rs:167-178). -/
def decodeList : EvList → DOut VList
  | .nil => .ok .nil
  | .cons e tl =>
    match decodeEv e with
    | .ok v =>
      match decodeList tl with
      | .ok l => .ok (.cons v l)
      | .err e => .err e
      | .panicked => .panicked
    | .err e => .err e
    | .panicked => .panicked
/-- Model of the `visit_map` entry loop (lib.rs:186-191): each further
    entry is read with `next_entry()` (key as `&'de str`) and inserted. -/
def decodeEntries (m : VEntries) : EvEntries → DOut Val
  | .nil => .ok (.object m)
  | .cons k ve rest =>
    match borrowKeyStr k with
    | .ok key =>
      match decodeEv ve with
      | .ok v => decodeEntries (mapIns m key v) rest
      | .err e => .err e
      | .panicked => .panicked
    | .err e => .err e
    | .panicked => .panicked
end

/-! The input-document model and the spec-modelled external collaborators. -/

mutual
/-- Model of JSON documents at parse-tree granularity: scalar values, plus
    the information the front-ends act on (whether each string or key
    token contains escape sequences; objects may contain duplicate keys in
    stream order). -/
inductive JDoc where
  | dnull
  | dbool (b : Bool)
  | dnum (n : JNum)
  | dstr (s : String) (esc : Bool)
  | darr (xs : DList)
  | dobj (kvs : DEntries)
inductive DList where
  | nil
  | cons (d : JDoc) (tl : DList)
inductive DEntries where
  | nil
  | cons (k : String) (esc : Bool) (v : JDoc) (tl : DEntries)
end

deriving instance DecidableEq for JDoc, DList, DEntries

/-- Modelled from the spec: numeric dispatch of the serde_json parsers
    (both routes) for an integer token — `visit_u64` when it fits the
    unsigned 64-bit range, `visit_i64` for negative values fitting signed
    64-bit, otherwise a finite `f64`. A float token is `visit_f64`. -/
def tokNum : JNum → Ev
  | .jint i =>
    if 0 ≤ i ∧ i < 2 ^ 64 then .evU64 i.toNat
    else if -(2 ^ 63) ≤ i ∧ i < 0 then .evI64 i
    else .evF64 (F64.ofInt i)
  | .jflt f => .evF64 f

mutual
/-- Modelled from the spec: the `serde_json_nostr` front-end (the
    borrowing token source used by `zero_copy`, not part of src/).
    Unescaped string tokens are delivered borrowed (the embedding tracks
    the aliased content and abstracts the concrete offset; offset
    correctness is the separate `TokWF` predicate used by the zero-copy
    theorems); escaped tokens are unescaped into transient bytes and
    delivered to `visit_bytes`. -/
def tokN : JDoc → Ev
  | .dnull => .evNull
  | .dbool b => .evBool b
  | .dnum n => tokNum n
  | .dstr s esc =>
    if esc then .evStr (.copiedBytes (utf8Encode s.data))
    else .evStr (.borrowed 0 (utf8Encode s.data).length s)
  | .darr xs => .evArr (tokNList xs)
  | .dobj kvs => .evObj (tokNEntries kvs)
def tokNList : DList → EvList
  | .nil => .nil
  | .cons d tl => .cons (tokN d) (tokNList tl)
def tokNEntries : DEntries → EvEntries
  | .nil => .nil
  | .cons k esc v tl =>
    .cons (if esc then .copiedBytes (utf8Encode k.data)
           else .borrowed 0 (utf8Encode k.data).length k)
          (tokN v) (tokNEntries tl)
end

mutual
/-- Modelled from the spec: the copying `serde_json` front-end (used by the
    repository's own tests via `serde_json::from_slice`): escaped string
    tokens are unescaped into a scratch buffer and delivered to
    `visit_str` as a transient `&str`. -/
def tokC : JDoc → Ev
  | .dnull => .evNull
  | .dbool b => .evBool b
  | .dnum n => tokNum n
  | .dstr s esc =>
    if esc then .evStr (.copiedStr s)
    else .evStr (.borrowed 0 (utf8Encode s.data).length s)
  | .darr xs => .evArr (tokCList xs)
  | .dobj kvs => .evObj (tokCEntries kvs)
def tokCList : DList → EvList
  | .nil => .nil
  | .cons d tl => .cons (tokC d) (tokCList tl)
def tokCEntries : DEntries → EvEntries
  | .nil => .nil
  | .cons k esc v tl =>
    .cons (if esc then .copiedStr k
           else .borrowed 0 (utf8Encode k.data).length k)
          (tokC v) (tokCEntries tl)
end

/-! The encoder (`impl Serialize for Value`, lib.rs:64-84). Its output is
    represented as the JSON document the emitted bytes denote (strings are
    emitted unescaped at the semantic level: the writer re-escapes and a
    reader unescapes, a net identity). -/

/-- Model of encode errors (`EncodeError`). -/
inductive EErr where
  | invalidUtf8
deriving DecidableEq

instance instDecEqExceptE {α : Type} [DecidableEq α] :
    DecidableEq (Except EErr α) := fun a b =>
  match a, b with
  | .ok x, .ok y =>
    if h : x = y then .isTrue (by rw [h]) else .isFalse (by simp [h])
  | .error e, .error f =>
    if h : e = f then .isTrue (by rw [h])
    else .isFalse (fun hc => h (by injection hc))
  | .ok _, .error _ => .isFalse (by simp)
  | .error _, .ok _ => .isFalse (by simp)

/-- Conversion of a stored `Number` back to the numeric token the
    serializer emits. -/
def jnumOfNumber : Number → JNum
  | .posInt n => .jint n
  | .negInt i => .jint i
  | .float f => .jflt f

mutual
/-- Model of `Serialize for Value` (lib.rs:64-84): Null as unit (JSON
    null), Bool, Number, Bytes via `serialize_bytes` — whose policy,
    modelled from the spec's authoritative fixture choice, validates the
    bytes as UTF-8 and emits them as a JSON string, failing with an
    `EncodeError` otherwise — String and OwnedString via `serialize_str`,
    Array elementwise, Object entrywise in the `BTreeMap` iteration order. -/
def encodeDoc : Val → Except EErr JDoc
  | .null => .ok .dnull
  | .bool b => .ok (.dbool b)
  | .num n => .ok (.dnum (jnumOfNumber n))
  | .bytes _ _ bs =>
    match utf8Dec? bs with
    | some cs => .ok (.dstr (String.mk cs) false)
    | none => .error .invalidUtf8
  | .str b => .ok (.dstr b.s false)
  | .ownedString s => .ok (.dstr s false)
  | .array xs =>
    match encodeList xs with
    | .ok l => .ok (.darr l)
    | .error e => .error e
  | .object m =>
    match encodeEntries m with
    | .ok es => .ok (.dobj es)
    | .error e => .error e
/-- Elementwise serialization of an array, first error stops (`tri!`). -/
def encodeList : VList → Except EErr DList
  | .nil => .ok .nil
  | .cons v tl =>
    match encodeDoc v with
    | .ok d =>
      match encodeList tl with
      | .ok l => .ok (.cons d l)
      | .error e => .error e
    | .error e => .error e
/-- Entrywise serialization of an object in map order (`serialize_entry`),
    first error stops (`tri!`). -/
def encodeEntries : VEntries → Except EErr DEntries
  | .nil => .ok .nil
  | .cons k v tl =>
    match encodeDoc v with
    | .ok d =>
      match encodeEntries tl with
      | .ok l => .ok (.cons k.s false d l)
      | .error e => .error e
    | .error e => .error e
end

/-! The standard copying JSON reader used for semantic comparison
    (spec §8: "reinterpretation by a standard (copying) JSON reader",
    i.e. `serde_json::Value`). Reading is modelled as normalization of a
    document: escape flags vanish, object entries are deduplicated
    last-write-wins into key order, numbers follow the same numeric
    policy. -/

/-- Sorted insert (last write wins) into a normalized entry list — the
    `BTreeMap<String, Value>` backing `serde_json::Value` objects. -/
def rIns : DEntries → String → JDoc → DEntries
  | .nil, k, v => .cons k false v .nil
  | .cons k₁ e₁ v₁ tl, k, v =>
    if ltStr k k₁ then .cons k false v (.cons k₁ e₁ v₁ tl)
    else if ltStr k₁ k then .cons k₁ e₁ v₁ (rIns tl k v)
    else .cons k₁ e₁ v tl

/-- Modelled from the spec: how the standard reader interprets one numeric
    token — the same dispatch as the parser, with non-finite floats
    impossible in JSON source (mapped to null, mirroring the decode
    policy, so the function is total). -/
def readNum (n : JNum) : JDoc :=
  match n with
  | .jint i =>
    if 0 ≤ i ∧ i < 2 ^ 64 then .dnum (.jint i)
    else if -(2 ^ 63) ≤ i ∧ i < 0 then .dnum (.jint i)
    else .dnum (.jflt (F64.ofInt i))
  | .jflt f =>
    match numberFromF64 f with
    | some m => .dnum (jnumOfNumber m)
    | none => .dnull

mutual
/-- Modelled from the spec: semantic reading by the standard copying JSON
    reader (`serde_json::Value`): strings are unescaped content, arrays
    are ordered, objects are key-sorted maps with last-write-wins
    duplicate handling. -/
def readDoc : JDoc → JDoc
  | .dnull => .dnull
  | .dbool b => .dbool b
  | .dnum n => readNum n
  | .dstr s _ => .dstr s false
  | .darr xs => .darr (readList xs)
  | .dobj kvs => .dobj (readEntries .nil kvs)
def readList : DList → DList
  | .nil => .nil
  | .cons d tl => .cons (readDoc d) (readList tl)
def readEntries (acc : DEntries) : DEntries → DEntries
  | .nil => acc
  | .cons k _ v tl => readEntries (rIns acc k (readDoc v)) tl
end

/-! The ownership-erasure demo endpoint. -/

/-- Model of the `.unwrap()` in `zero_copy` (main.rs:104): a decode
    failure is turned into a panic instead of being propagated. -/
def unwrapOut (o : DOut Val) : DOut Val :=
  match o with
  | .ok v => .ok v
  | .err _ => .panicked
  | .panicked => .panicked

/-- Model of the `zero_copy` handler body (main.rs:96-110): decode the
    fetched buffer with the borrowing front-end and unwrap the result. -/
def zeroCopyHandler (d : JDoc) : DOut Val := unwrapOut (decodeEv (tokN d))

/-! Predicates used by the claims: key-sortedness, zero-copy aliasing
    well-formedness, escaped-key presence, and last-write-wins helpers. -/

/-- All keys of the map suffix are strictly greater than `s`. -/
def allKeyGtV (s : String) : VEntries → Prop
  | .nil => True
  | .cons k _ tl => ltStr s k.s = true ∧ allKeyGtV s tl

/-- The `BTreeMap` representation invariant: strictly increasing keys. -/
def sortedV : VEntries → Prop
  | .nil => True
  | .cons k _ tl => allKeyGtV k.s tl ∧ sortedV tl

/-- All keys of the normalized entry-list suffix are strictly greater than `s`. -/
def allKeyGtD (s : String) : DEntries → Prop
  | .nil => True
  | .cons k _ _ tl => ltStr s k = true ∧ allKeyGtD s tl

/-- Strictly increasing keys of an emitted or normalized object entry list. -/
def sortedD : DEntries → Prop
  | .nil => True
  | .cons k _ _ tl => allKeyGtD k tl ∧ sortedD tl

mutual
/-- Every object anywhere in the value has strictly key-sorted entries
    (the `BTreeMap` invariant, recursively). -/
def valSorted : Val → Prop
  | .array xs => vlistSorted xs
  | .object m => sortedV m ∧ ventriesSorted m
  | _ => True
def vlistSorted : VList → Prop
  | .nil => True
  | .cons v tl => valSorted v ∧ vlistSorted tl
def ventriesSorted : VEntries → Prop
  | .nil => True
  | .cons _ v tl => valSorted v ∧ ventriesSorted tl
end

mutual
/-- Every object anywhere in the document has strictly key-sorted entries. -/
def docObjSorted : JDoc → Prop
  | .darr xs => dlistObjSorted xs
  | .dobj kvs => sortedD kvs ∧ dentriesObjSorted kvs
  | _ => True
def dlistObjSorted : DList → Prop
  | .nil => True
  | .cons d tl => docObjSorted d ∧ dlistObjSorted tl
def dentriesObjSorted : DEntries → Prop
  | .nil => True
  | .cons _ _ v tl => docObjSorted v ∧ dentriesObjSorted tl
end

/-- A string token that was delivered borrowed (unescaped and contiguous). -/
def tokBorrowed : StrTok → Prop
  | .borrowed _ _ _ => True
  | .copiedStr _ => False
  | .copiedBytes _ => False

mutual
/-- Every string token of the event tree is borrowed — the front-end found
    no escape sequences anywhere in the document. -/
def evBorrowedOnly : Ev → Prop
  | .evStr t => tokBorrowed t
  | .evArr xs => evListBorrowedOnly xs
  | .evObj es => evEntriesBorrowedOnly es
  | _ => True
def evListBorrowedOnly : EvList → Prop
  | .nil => True
  | .cons e tl => evBorrowedOnly e ∧ evListBorrowedOnly tl
def evEntriesBorrowedOnly : EvEntries → Prop
  | .nil => True
  | .cons k v tl => tokBorrowed k ∧ evBorrowedOnly v ∧ evEntriesBorrowedOnly tl
end

/-- The byte range `off/len` of the input buffer, as a Rust subslice. -/
def extractBuf (buf : List Nat) (off len : Nat) : List Nat :=
  (buf.drop off).take len

/-- A borrowed string token genuinely aliases the input buffer: its range
    is in bounds and the buffer bytes there are the UTF-8 encoding of the
    token's text. Copied tokens carry their own storage. -/
def tokWFStr (buf : List Nat) : StrTok → Prop
  | .borrowed off len s =>
    off + len ≤ buf.length ∧ extractBuf buf off len = utf8Encode s.data
  | .copiedStr _ => True
  | .copiedBytes _ => True

mutual
/-- All borrowed tokens of the event tree genuinely alias `buf`. -/
def evWF (buf : List Nat) : Ev → Prop
  | .evStr t => tokWFStr buf t
  | .evBytes off len bs =>
    off + len ≤ buf.length ∧ extractBuf buf off len = bs
  | .evArr xs => evListWF buf xs
  | .evObj es => evEntriesWF buf es
  | _ => True
def evListWF (buf : List Nat) : EvList → Prop
  | .nil => True
  | .cons e tl => evWF buf e ∧ evListWF buf tl
def evEntriesWF (buf : List Nat) : EvEntries → Prop
  | .nil => True
  | .cons k v tl => tokWFStr buf k ∧ evWF buf v ∧ evEntriesWF buf tl
end

/-- A `&'a str` leaf or key aliases the buffer: in-bounds range whose bytes
    are the UTF-8 encoding of the pointed-at text. -/
def bstrAliases (buf : List Nat) (b : BStr) : Prop :=
  b.off + b.len ≤ buf.length ∧ extractBuf buf b.off b.len = utf8Encode b.s.data

mutual
/-- The zero-copy property of a decoded value: every `String`/`Bytes` leaf
    (and every object key) is a borrowed sub-range of the input buffer,
    and no `OwnedString` copy exists anywhere. -/
def valAliases (buf : List Nat) : Val → Prop
  | .str b => bstrAliases buf b
  | .bytes off len bs =>
    off + len ≤ buf.length ∧ extractBuf buf off len = bs
  | .ownedString _ => False
  | .array xs => vlistAliases buf xs
  | .object m => ventriesAliases buf m
  | _ => True
def vlistAliases (buf : List Nat) : VList → Prop
  | .nil => True
  | .cons v tl => valAliases buf v ∧ vlistAliases buf tl
def ventriesAliases (buf : List Nat) : VEntries → Prop
  | .nil => True
  | .cons k v tl => bstrAliases buf k ∧ valAliases buf v ∧ ventriesAliases buf tl
end

mutual
/-- Some object key somewhere in the document contains an escape sequence. -/
def hasEscKey : JDoc → Prop
  | .darr xs => dlistHasEscKey xs
  | .dobj kvs => dentriesHasEscKey kvs
  | _ => False
def dlistHasEscKey : DList → Prop
  | .nil => False
  | .cons d tl => hasEscKey d ∨ dlistHasEscKey tl
def dentriesHasEscKey : DEntries → Prop
  | .nil => False
  | .cons _ esc v tl => esc = true ∨ hasEscKey v ∨ dentriesHasEscKey tl
end

/-- Lookup by key content in a map entry list (`BTreeMap::get`). -/
def lookupV : VEntries → String → Option Val
  | .nil, _ => none
  | .cons k v tl, s => if k.s = s then some v else lookupV tl s

/-- The stream of decoded object entries in input order, before map
    insertion — the specification-side view of `visit_map`'s loop. -/
def decodeEntryList : EvEntries → DOut (List (BStr × Val))
  | .nil => .ok []
  | .cons k ve tl =>
    match borrowKeyStr k with
    | .ok key =>
      match decodeEv ve with
      | .ok v =>
        match decodeEntryList tl with
        | .ok l => .ok ((key, v) :: l)
        | .err e => .err e
        | .panicked => .panicked
      | .err e => .err e
      | .panicked => .panicked
    | .err e => .err e
    | .panicked => .panicked

/-- The most recently decoded value for a key content in an entry stream. -/
def lastAssoc : List (BStr × Val) → String → Option Val
  | [], _ => none
  | (k, v) :: tl, s =>
    match lastAssoc tl s with
    | some w => some w
    | none => if k.s = s then some v else none

/-- Folding a decoded entry stream into the map by repeated insertion. -/
def mapInsFold (m : VEntries) : List (BStr × Val) → VEntries
  | [] => m
  | (k, v) :: tl => mapInsFold (mapIns m k v) tl

/-- Concatenation of entry lists. -/
def appD : DEntries → DEntries → DEntries
  | .nil, l => l
  | .cons k e v tl, l => .cons k e v (appD tl l)

/-- All keys of `l` are strictly below `s`. -/
def keysBelow : DEntries → String → Prop
  | .nil, _ => True
  | .cons k _ _ tl, s => ltStr k s = true ∧ keysBelow tl s

/-- Plain sorted-insert fold of already-normalized entries. -/
def insFoldD (acc : DEntries) : DEntries → DEntries
  | .nil => acc
  | .cons k _ v tl => insFoldD (rIns acc k v) tl

/-- Every escape flag of the entry list is cleared (normalized form). -/
def escFlagsFalse : DEntries → Prop
  | .nil => True
  | .cons _ e _ tl => e = false ∧ escFlagsFalse tl

/-- All keys of `acc` are strictly below every key of the second list. -/
def keysBelowAll (acc : DEntries) : DEntries → Prop
  | .nil => True
  | .cons k _ _ tl => keysBelow acc k ∧ keysBelowAll acc tl

/-- Correspondence between a decoded object map and the normalized entry
    list a standard reader obtains from its serialization: pointwise equal
    keys, and each stored value encodes successfully to a document that
    reads back as the corresponding normalized value. -/
inductive Corr : VEntries → DEntries → Prop where
  | nil : Corr .nil .nil
  | cons (k : BStr) (v : Val) (m : VEntries) (j ov : JDoc) (l : DEntries) :
      encodeDoc v = .ok ov → readDoc ov = j → Corr m l →
      Corr (.cons k v m) (.cons k.s false j l)

/-! UTF-8 round-trip lemmas. -/

theorem encChar_length_pos (n : Nat) : 0 < (encChar n).length := by
  unfold encChar
  split
  · simp
  split
  · simp
  split <;> simp

theorem decode1_encChar (c : Char) (r : List Nat) :
    decode1 (encChar c.toNat ++ r) = some (c.toNat, (encChar c.toNat).length) := by
  have hv : Nat.isValidChar c.toNat := c.valid
  have hv2 : c.toNat < 0xD800 ∨ (0xDFFF < c.toNat ∧ c.toNat < 0x110000) := hv
  by_cases h1 : c.toNat < 0x80
  · simp [encChar, h1, decode1]
  by_cases h2 : c.toNat < 0x800
  · simp only [encChar, h1, h2, if_true, if_false, ite_true, ite_false, if_neg,
      not_false_iff, List.cons_append, List.nil_append, List.length_cons, List.length_nil]
    simp only [decode1]
    split
    · omega
    split
    · omega
    split
    · split
      · simp
        omega
      · omega
    · omega
  by_cases h3 : c.toNat < 0x10000
  · simp only [encChar, h1, h2, h3, if_true, if_false, ite_true, ite_false, if_neg,
      not_false_iff, List.cons_append, List.nil_append, List.length_cons, List.length_nil]
    simp only [decode1]
    split
    · omega
    split
    · omega
    split
    · omega
    split
    · split
      · split
        · omega
        · simp
          omega
      · omega
    · omega
  · simp only [encChar, h1, h2, h3, if_true, if_false, ite_true, ite_false, if_neg,
      not_false_iff, List.cons_append, List.nil_append, List.length_cons, List.length_nil]
    simp only [decode1]
    split
    · omega
    split
    · omega
    split
    · omega
    split
    · omega
    split
    · split
      · split
        · omega
        · simp
          omega
      · omega
    · omega

theorem decAux_encode (s : List Char) : ∀ f, (utf8Encode s).length ≤ f →
    decAux f (utf8Encode s) = some s := by
  induction s with
  | nil => intro f _; cases f <;> simp [utf8Encode, decAux]
  | cons c cs ih =>
    intro f hf
    have hpos : 0 < (encChar c.toNat).length := encChar_length_pos _
    have hlen : (utf8Encode (c :: cs)).length =
        (encChar c.toNat).length + (utf8Encode cs).length := by
      simp [utf8Encode]
    cases f with
    | zero => omega
    | succ f =>
      rcases hcons : encChar c.toNat ++ utf8Encode cs with _ | ⟨b, tl⟩
      · exfalso
        have h0 := congrArg List.length hcons
        rw [List.length_append] at h0
        simp only [List.length_nil] at h0
        omega
      · show decAux (f + 1) (utf8Encode (c :: cs)) = _
        rw [utf8Encode, hcons]
        simp only [decAux]
        rw [← hcons]
        have hrest : (utf8Encode cs).length ≤ f := by omega
        simp [decode1_encChar c, List.drop_left, ih f hrest, Char.ofNat_toNat]

theorem utf8Dec_encode (s : List Char) : utf8Dec? (utf8Encode s) = some s :=
  decAux_encode s _ le_rfl

theorem lossyAux_encode (s : List Char) : ∀ f, (utf8Encode s).length ≤ f →
    lossyAux f (utf8Encode s) = s := by
  induction s with
  | nil => intro f _; cases f <;> simp [utf8Encode, lossyAux]
  | cons c cs ih =>
    intro f hf
    have hpos : 0 < (encChar c.toNat).length := encChar_length_pos _
    have hlen : (utf8Encode (c :: cs)).length =
        (encChar c.toNat).length + (utf8Encode cs).length := by
      simp [utf8Encode]
    cases f with
    | zero => omega
    | succ f =>
      rcases hcons : encChar c.toNat ++ utf8Encode cs with _ | ⟨b, tl⟩
      · exfalso
        have h0 := congrArg List.length hcons
        rw [List.length_append] at h0
        simp only [List.length_nil] at h0
        omega
      · show lossyAux (f + 1) (utf8Encode (c :: cs)) = _
        rw [utf8Encode, hcons]
        simp only [lossyAux]
        rw [← hcons]
        have hrest : (utf8Encode cs).length ≤ f := by omega
        simp [decode1_encChar c, List.drop_left, ih f hrest, Char.ofNat_toNat]

theorem utf8LossyStr_encode (s : String) : utf8LossyStr (utf8Encode s.data) = s := by
  rw [utf8LossyStr, lossyAux_encode s.data _ le_rfl]

/-! Order lemmas for the key comparison. -/


theorem ltChars_irrefl (l : List Char) : ltChars l l = false := by
  induction l with
  | nil => rfl
  | cons c cs ih => simp [ltChars, ih]

theorem ltChars_asymm : ∀ a b, ltChars a b = true → ltChars b a = false := by
  intro a
  induction a with
  | nil => intro b h; cases b <;> simp_all [ltChars]
  | cons c cs ih =>
    intro b h
    cases b with
    | nil => simp [ltChars] at h
    | cons d ds =>
      simp only [ltChars] at h ⊢
      by_cases h1 : c.toNat < d.toNat
      · rw [if_neg (by omega), if_pos h1]
      · by_cases h2 : d.toNat < c.toNat
        · simp [h1, h2] at h
        · simp only [h1, h2, if_false, ite_false]
          exact ih ds (by simpa [h1, h2] using h)

theorem charEq_of_toNat_eq {c d : Char} (h : c.toNat = d.toNat) : c = d := by
  have hc := Char.ofNat_toNat c
  rw [← hc, h, Char.ofNat_toNat]

theorem ltChars_eq_of_not : ∀ a b, ltChars a b = false → ltChars b a = false → a = b := by
  intro a
  induction a with
  | nil => intro b h1 h2; cases b <;> simp_all [ltChars]
  | cons c cs ih =>
    intro b h1 h2
    cases b with
    | nil => simp [ltChars] at h2
    | cons d ds =>
      simp only [ltChars] at h1 h2
      by_cases hcd : c.toNat < d.toNat
      · simp [hcd] at h1
      · by_cases hdc : d.toNat < c.toNat
        · simp [hdc] at h2
        · have hc : c = d := charEq_of_toNat_eq (by omega)
          have htl : cs = ds := ih ds (by simpa [hcd, hdc] using h1) (by simpa [hcd, hdc] using h2)
          rw [hc, htl]

theorem ltChars_trans : ∀ a b c, ltChars a b = true → ltChars b c = true →
    ltChars a c = true := by
  intro a
  induction a with
  | nil =>
    intro b c h1 h2
    cases b with
    | nil => simp [ltChars] at h1
    | cons d ds => cases c with
      | nil => simp [ltChars] at h2
      | cons e es => simp [ltChars]
  | cons x xs ih =>
    intro b c h1 h2
    cases b with
    | nil => simp [ltChars] at h1
    | cons y ys =>
      cases c with
      | nil => simp [ltChars] at h2
      | cons z zs =>
        simp only [ltChars] at h1 h2 ⊢
        by_cases hxy : x.toNat < y.toNat
        · by_cases hyz : y.toNat < z.toNat
          · rw [if_pos (by omega)]
          · by_cases hzy : z.toNat < y.toNat
            · simp [hyz, hzy] at h2
            · rw [if_pos (by omega)]
        · by_cases hyx : y.toNat < x.toNat
          · simp [hxy, hyx] at h1
          · by_cases hyz : y.toNat < z.toNat
            · rw [if_pos (by omega)]
            · by_cases hzy : z.toNat < y.toNat
              · simp [hyz, hzy] at h2
              · have hx : ¬x.toNat < z.toNat := by omega
                have hz : ¬z.toNat < x.toNat := by omega
                rw [if_neg hx, if_neg hz]
                exact ih ys zs (by simpa [hxy, hyx] using h1) (by simpa [hyz, hzy] using h2)

theorem stringEq_of_data_eq {s t : String} (h : s.data = t.data) : s = t := by
  cases s
  cases t
  exact congrArg String.mk h

theorem ltStr_irrefl (s : String) : ltStr s s = false := ltChars_irrefl s.data

theorem ltStr_asymm {s t : String} (h : ltStr s t = true) : ltStr t s = false :=
  ltChars_asymm s.data t.data h

theorem ltStr_eq_of_not {s t : String} (h1 : ltStr s t = false)
    (h2 : ltStr t s = false) : s = t :=
  stringEq_of_data_eq (ltChars_eq_of_not s.data t.data h1 h2)

theorem ltStr_trans {s t u : String} (h1 : ltStr s t = true)
    (h2 : ltStr t u = true) : ltStr s u = true :=
  ltChars_trans s.data t.data u.data h1 h2

/-! Insertion lemmas for the BTreeMap model and the reader map. -/


theorem lookupV_mapIns : ∀ (m : VEntries) (k : BStr) (v : Val) (s : String),
    lookupV (mapIns m k v) s = if k.s = s then some v else lookupV m s
  | .nil, k, v, s => by simp [mapIns, lookupV]
  | .cons k1 v1 tl, k, v, s => by
    have ih := lookupV_mapIns tl k v s
    by_cases h1 : ltStr k.s k1.s = true
    · simp [mapIns, h1, lookupV]
    · rw [Bool.not_eq_true] at h1
      by_cases h2 : ltStr k1.s k.s = true
      · simp only [mapIns, h1, h2, if_true, if_false, ite_true, ite_false,
          Bool.false_eq_true, lookupV, ih]
        by_cases h3 : k1.s = s
        · subst h3
          have hne : ¬k.s = k1.s := by
            intro he
            rw [he, ltStr_irrefl] at h2
            exact Bool.noConfusion h2
          simp [hne]
        · simp [h3]
      · rw [Bool.not_eq_true] at h2
        have heq : k1.s = k.s := ltStr_eq_of_not h2 h1
        simp only [mapIns, h1, h2, Bool.false_eq_true, if_false, ite_false, lookupV]
        rw [heq]
        by_cases h3 : k.s = s
        · simp [h3]
        · simp [h3]

theorem allKeyGtV_mono : ∀ {m : VEntries} {a b : String}, ltStr a b = true →
    allKeyGtV b m → allKeyGtV a m
  | .nil, _, _, _, _ => trivial
  | .cons _ _ _, _, _, h, hm => ⟨ltStr_trans h hm.1, allKeyGtV_mono h hm.2⟩

theorem allKeyGtV_mapIns : ∀ {m : VEntries} {s : String} {k : BStr} {v : Val},
    allKeyGtV s m → ltStr s k.s = true → allKeyGtV s (mapIns m k v)
  | .nil, s, k, v, _, hk => ⟨hk, trivial⟩
  | .cons k1 v1 tl, s, k, v, hm, hk => by
    by_cases h1 : ltStr k.s k1.s = true
    · rw [mapIns, if_pos h1]
      exact ⟨hk, hm⟩
    · rw [Bool.not_eq_true] at h1
      by_cases h2 : ltStr k1.s k.s = true
      · simp only [mapIns, h1, h2, Bool.false_eq_true, if_false, ite_false, if_true,
          ite_true, allKeyGtV]
        exact ⟨hm.1, allKeyGtV_mapIns hm.2 hk⟩
      · rw [Bool.not_eq_true] at h2
        simp only [mapIns, h1, h2, Bool.false_eq_true, if_false, ite_false, allKeyGtV]
        exact ⟨hm.1, hm.2⟩

theorem sortedV_mapIns : ∀ {m : VEntries} {k : BStr} {v : Val}, sortedV m →
    sortedV (mapIns m k v)
  | .nil, k, v, _ => ⟨trivial, trivial⟩
  | .cons k1 v1 tl, k, v, hm => by
    by_cases h1 : ltStr k.s k1.s = true
    · rw [mapIns, if_pos h1]
      exact ⟨⟨h1, allKeyGtV_mono h1 hm.1⟩, hm⟩
    · rw [Bool.not_eq_true] at h1
      by_cases h2 : ltStr k1.s k.s = true
      · simp only [mapIns, h1, h2, Bool.false_eq_true, if_false, ite_false, if_true,
          ite_true, sortedV]
        exact ⟨allKeyGtV_mapIns hm.1 h2, sortedV_mapIns hm.2⟩
      · rw [Bool.not_eq_true] at h2
        simp only [mapIns, h1, h2, Bool.false_eq_true, if_false, ite_false, sortedV]
        exact ⟨hm.1, hm.2⟩

theorem ventriesSorted_mapIns : ∀ {m : VEntries} {k : BStr} {v : Val},
    ventriesSorted m → valSorted v → ventriesSorted (mapIns m k v)
  | .nil, k, v, _, hv => ⟨hv, trivial⟩
  | .cons k1 v1 tl, k, v, hm, hv => by
    by_cases h1 : ltStr k.s k1.s = true
    · simp only [mapIns, h1, if_true, ite_true, ventriesSorted]
      exact ⟨hv, hm⟩
    · rw [Bool.not_eq_true] at h1
      by_cases h2 : ltStr k1.s k.s = true
      · simp only [mapIns, h1, h2, Bool.false_eq_true, if_false, ite_false, if_true,
          ite_true, ventriesSorted]
        exact ⟨hm.1, ventriesSorted_mapIns hm.2 hv⟩
      · rw [Bool.not_eq_true] at h2
        simp only [mapIns, h1, h2, Bool.false_eq_true, if_false, ite_false, ventriesSorted]
        exact ⟨hv, hm.2⟩

theorem ventriesAliases_mapIns : ∀ {buf : List Nat} {m : VEntries} {k : BStr} {v : Val},
    ventriesAliases buf m → bstrAliases buf k → valAliases buf v →
    ventriesAliases buf (mapIns m k v)
  | buf, .nil, k, v, _, hk, hv => ⟨hk, hv, trivial⟩
  | buf, .cons k1 v1 tl, k, v, hm, hk, hv => by
    by_cases h1 : ltStr k.s k1.s = true
    · simp only [mapIns, h1, if_true, ite_true, ventriesAliases]
      exact ⟨hk, hv, hm⟩
    · rw [Bool.not_eq_true] at h1
      by_cases h2 : ltStr k1.s k.s = true
      · simp only [mapIns, h1, h2, Bool.false_eq_true, if_false, ite_false, if_true,
          ite_true, ventriesAliases]
        exact ⟨hm.1, hm.2.1, ventriesAliases_mapIns hm.2.2 hk hv⟩
      · rw [Bool.not_eq_true] at h2
        simp only [mapIns, h1, h2, Bool.false_eq_true, if_false, ite_false, ventriesAliases]
        exact ⟨hm.1, hv, hm.2.2⟩

theorem allKeyGtD_mono : ∀ {l : DEntries} {a b : String}, ltStr a b = true →
    allKeyGtD b l → allKeyGtD a l
  | .nil, _, _, _, _ => trivial
  | .cons _ _ _ _, _, _, h, hl => ⟨ltStr_trans h hl.1, allKeyGtD_mono h hl.2⟩

theorem allKeyGtD_rIns : ∀ {l : DEntries} {s k : String} {v : JDoc},
    allKeyGtD s l → ltStr s k = true → allKeyGtD s (rIns l k v)
  | .nil, s, k, v, _, hk => ⟨hk, trivial⟩
  | .cons k1 e1 v1 tl, s, k, v, hl, hk => by
    by_cases h1 : ltStr k k1 = true
    · rw [rIns, if_pos h1]
      exact ⟨hk, hl⟩
    · rw [Bool.not_eq_true] at h1
      by_cases h2 : ltStr k1 k = true
      · simp only [rIns, h1, h2, Bool.false_eq_true, if_false, ite_false, if_true,
          ite_true, allKeyGtD]
        exact ⟨hl.1, allKeyGtD_rIns hl.2 hk⟩
      · rw [Bool.not_eq_true] at h2
        simp only [rIns, h1, h2, Bool.false_eq_true, if_false, ite_false, allKeyGtD]
        exact ⟨hl.1, hl.2⟩

theorem sortedD_rIns : ∀ {l : DEntries} {k : String} {v : JDoc}, sortedD l →
    sortedD (rIns l k v)
  | .nil, k, v, _ => ⟨trivial, trivial⟩
  | .cons k1 e1 v1 tl, k, v, hl => by
    by_cases h1 : ltStr k k1 = true
    · rw [rIns, if_pos h1]
      exact ⟨⟨h1, allKeyGtD_mono h1 hl.1⟩, hl⟩
    · rw [Bool.not_eq_true] at h1
      by_cases h2 : ltStr k1 k = true
      · simp only [rIns, h1, h2, Bool.false_eq_true, if_false, ite_false, if_true,
          ite_true, sortedD]
        exact ⟨allKeyGtD_rIns hl.1 h2, sortedD_rIns hl.2⟩
      · rw [Bool.not_eq_true] at h2
        simp only [rIns, h1, h2, Bool.false_eq_true, if_false, ite_false, sortedD]
        exact ⟨hl.1, hl.2⟩

/-! Claims C4, C10, C8, C3, C5. -/


theorem classifyKey_of_borrowKeyStr {k : StrTok} {b : BStr}
    (h : borrowKeyStr k = .ok b) : classifyKey k = .ok b := by
  cases k <;> simp_all [borrowKeyStr, classifyKey, invalidTypeErr, keyClassifierExpecting]

theorem decodeEntries_stream : ∀ (es : EvEntries) (l : List (BStr × Val)) (m : VEntries),
    decodeEntryList es = .ok l → decodeEntries m es = .ok (.object (mapInsFold m l))
  | .nil, l, m, h => by
    simp only [decodeEntryList] at h
    cases h
    simp [decodeEntries, mapInsFold]
  | .cons k ve tl, l, m, h => by
    simp only [decodeEntryList] at h
    cases hk : borrowKeyStr k with
    | ok key =>
      simp only [hk] at h
      cases hv : decodeEv ve with
      | ok v =>
        simp only [hv] at h
        cases hl : decodeEntryList tl with
        | ok l2 =>
          simp only [hl] at h
          cases h
          simp only [decodeEntries, hk, hv]
          exact decodeEntries_stream tl l2 (mapIns m key v) hl
        | err e => simp [hl] at h
        | panicked => simp [hl] at h
      | err e => simp [hv] at h
      | panicked => simp [hv] at h
    | err e => simp [hk] at h
    | panicked => simp [hk] at h

theorem lookupV_mapInsFold : ∀ (l : List (BStr × Val)) (m : VEntries) (s : String),
    lookupV (mapInsFold m l) s =
      match lastAssoc l s with
      | some w => some w
      | none => lookupV m s
  | [], _, _ => by simp [mapInsFold, lastAssoc]
  | (k, v) :: tl, m, s => by
    simp only [mapInsFold, lastAssoc]
    rw [lookupV_mapInsFold tl (mapIns m k v) s]
    cases lastAssoc tl s with
    | some w => simp
    | none =>
      by_cases h3 : k.s = s
      · simp [h3, lookupV_mapIns]
      · simp [h3, lookupV_mapIns]

/-- C4: decoding an object reads its entries in stream order and resolves
    duplicate keys by replacement (last write wins): the decoded map's
    lookup at every key content equals the most recently decoded value for
    that content in the entry stream, and no error is raised for
    duplicates. -/
theorem c4_duplicate_keys_last_write_wins (es : EvEntries) (l : List (BStr × Val))
    (h : decodeEntryList es = .ok l) :
    ∃ m, decodeEv (.evObj es) = .ok (.object m) ∧
      ∀ s, lookupV m s = lastAssoc l s := by
  cases es with
  | nil =>
    simp only [decodeEntryList] at h
    cases h
    exact ⟨.nil, rfl, fun s => rfl⟩
  | cons k ve tl =>
    simp only [decodeEntryList] at h
    cases hk : borrowKeyStr k with
    | ok key =>
      simp only [hk] at h
      cases hv : decodeEv ve with
      | ok v =>
        simp only [hv] at h
        cases hl : decodeEntryList tl with
        | ok l2 =>
          simp only [hl] at h
          cases h
          refine ⟨mapInsFold (mapIns .nil key v) l2, ?_, ?_⟩
          · simp only [decodeEv, classifyKey_of_borrowKeyStr hk, hv]
            exact decodeEntries_stream tl l2 (mapIns .nil key v) hl
          · intro s
            rw [lookupV_mapInsFold]
            simp only [lastAssoc]
            cases lastAssoc l2 s with
            | some w => simp
            | none =>
              by_cases h3 : key.s = s
              · simp [h3, lookupV_mapIns]
              · simp [h3, lookupV_mapIns, lookupV]
        | err e => simp [hl] at h
        | panicked => simp [hl] at h
      | err e => simp [hv] at h
      | panicked => simp [hv] at h
    | err e => simp [hk] at h
    | panicked => simp [hk] at h

/-- C4 witness: decoding the entry stream of the document
    `{"a":1,"a":2}` succeeds and its map holds the single key "a" mapped
    to 2 (offsets 2 and 10 are the key positions in the input bytes). -/
theorem c4_witness :
    (∃ m, decodeEv (.evObj (.cons (.borrowed 2 1 "a") (.evU64 1)
        (.cons (.borrowed 10 1 "a") (.evU64 2) .nil))) = .ok (.object m) ∧
      ∀ s, lookupV m s =
        lastAssoc [(⟨2, 1, "a"⟩, .num (.posInt 1)), (⟨10, 1, "a"⟩, .num (.posInt 2))] s) ∧
    decodeEv (.evObj (.cons (.borrowed 2 1 "a") (.evU64 1)
        (.cons (.borrowed 10 1 "a") (.evU64 2) .nil))) =
      .ok (.object (.cons ⟨2, 1, "a"⟩ (.num (.posInt 2)) .nil)) :=
  ⟨c4_duplicate_keys_last_write_wins _
      [(⟨2, 1, "a"⟩, .num (.posInt 1)), (⟨10, 1, "a"⟩, .num (.posInt 2))] rfl,
    by decide⟩


/-- C10: serializing a borrowed `String` leaf and serializing an
    `OwnedString` leaf with the same content produce identical output —
    the borrowed-versus-owned distinction is invisible to the encoder
    (both arms call `serialize_str`, lib.rs:71 and lib.rs:81). -/
theorem c10_string_owned_encode_agree (off len : Nat) (s : String) :
    encodeDoc (.str ⟨off, len, s⟩) = encodeDoc (.ownedString s) := rfl

/-- C8: the encoder's `Bytes` policy validates the leaf as UTF-8 and emits
    exactly the decoded text as a JSON string; invalid bytes fail with an
    `EncodeError`; and a failure anywhere (a leaf or the sink behind the
    `tri!` propagation) aborts the enclosing array/object serialization
    with that same error, never dropping or replacing data. -/
theorem c8_encode_bytes_utf8 :
    (∀ off len bs cs, utf8Dec? bs = some cs →
      encodeDoc (.bytes off len bs) = .ok (.dstr (String.mk cs) false)) ∧
    (∀ off len bs, utf8Dec? bs = none →
      encodeDoc (.bytes off len bs) = .error .invalidUtf8) ∧
    (∀ v tl e, encodeDoc v = .error e → encodeList (.cons v tl) = .error e) ∧
    (∀ k v tl e, encodeDoc v = .error e → encodeEntries (.cons k v tl) = .error e) ∧
    (∀ xs e, encodeList xs = .error e → encodeDoc (.array xs) = .error e) ∧
    (∀ m e, encodeEntries m = .error e → encodeDoc (.object m) = .error e) := by
  refine ⟨?_, ?_, ?_, ?_, ?_, ?_⟩
  · intro off len bs cs h
    simp [encodeDoc, h]
  · intro off len bs h
    simp [encodeDoc, h]
  · intro v tl e h
    simp [encodeList, h]
  · intro k v tl e h
    simp [encodeEntries, h]
  · intro xs e h
    simp [encodeDoc, h]
  · intro m e h
    simp [encodeDoc, h]

/-- C8 witness: valid bytes "hi" encode as the string "hi"; the invalid
    byte 0xFF fails with `EncodeError`, also when nested in an array. -/
theorem c8_witness :
    encodeDoc (.bytes 0 2 [104, 105]) = .ok (.dstr "hi" false) ∧
    encodeDoc (.bytes 0 1 [255]) = .error .invalidUtf8 ∧
    encodeDoc (.array (.cons (.bytes 0 1 [255]) .nil)) = .error .invalidUtf8 :=
  ⟨c8_encode_bytes_utf8.1 0 2 [104, 105] "hi".data (by decide),
   c8_encode_bytes_utf8.2.1 0 1 [255] (by decide),
   c8_encode_bytes_utf8.2.2.2.2.1 _ _
     (c8_encode_bytes_utf8.2.2.1 _ .nil _
       (c8_encode_bytes_utf8.2.1 0 1 [255] (by decide)))⟩

/-- C3 is refuted by the code as written: decoding the valid document
    consisting of the escaped string "a\"b" through the copying
    `serde_json` route (the route the repository's own tests use) reaches
    the default `visit_str`, whose `invalid_type` error formats
    `ValueVisitor::expecting` — which executes `panic!()` (lib.rs:101);
    and the `zero_copy` handler `.unwrap()`s a decode error (main.rs:104),
    turning the recoverable failure on an object with an escaped key into
    a panic as well. -/
theorem c3_decoder_panics :
    decodeEv (tokC (.dstr "a\"b" true)) = .panicked ∧
    zeroCopyHandler (.dobj (.cons "a\nb" true (.dnum (.jint 1)) .nil)) = .panicked := by
  constructor
  · rfl
  · rfl

/-- C5: the numeric decode policy of the visitor under the front-end
    dispatch: unsigned-64-fitting integer tokens become that `u64`;
    negative 64-bit integers become signed; out-of-range integers and
    finite floats become finite `f64` numbers; non-finite floats decode to
    `Null`, never to an error. -/
theorem c5_numeric_policy :
    (∀ i : Int, 0 ≤ i → i < 2 ^ 64 →
      decodeEv (tokNum (.jint i)) = .ok (.num (.posInt i.toNat))) ∧
    (∀ i : Int, -(2 ^ 63) ≤ i → i < 0 →
      decodeEv (tokNum (.jint i)) = .ok (.num (.negInt i))) ∧
    (∀ i : Int, 2 ^ 64 ≤ i ∨ i < -(2 ^ 63) →
      decodeEv (tokNum (.jint i)) = .ok (.num (.float (F64.ofInt i)))) ∧
    (∀ f : F64, f.finite = true →
      decodeEv (tokNum (.jflt f)) = .ok (.num (.float f))) ∧
    (∀ f : F64, f.finite = false →
      decodeEv (tokNum (.jflt f)) = .ok .null) := by
  refine ⟨?_, ?_, ?_, ?_, ?_⟩
  · intro i h1 h2
    rw [tokNum, if_pos ⟨h1, h2⟩]
    simp [decodeEv]
  · intro i h1 h2
    have hn : ¬(0 ≤ i ∧ i < 2 ^ 64) := by omega
    rw [tokNum, if_neg hn, if_pos ⟨h1, h2⟩]
    simp [decodeEv, numberOfI64, h2]
  · intro i h
    have hn1 : ¬(0 ≤ i ∧ i < 2 ^ 64) := by omega
    have hn2 : ¬(-(2 ^ 63) ≤ i ∧ i < 0) := by omega
    rw [tokNum, if_neg hn1, if_neg hn2]
    simp [decodeEv, numberFromF64, F64.ofInt]
  · intro f h
    simp [tokNum, decodeEv, numberFromF64, h]
  · intro f h
    simp [tokNum, decodeEv, numberFromF64, h]

/-- C5 witness: the policy evaluated at 5, -3, 2^64, a finite and a
    non-finite float. -/
theorem c5_witness :
    decodeEv (tokNum (.jint 5)) = .ok (.num (.posInt 5)) ∧
    decodeEv (tokNum (.jint (-3))) = .ok (.num (.negInt (-3))) ∧
    decodeEv (tokNum (.jint (2 ^ 64))) = .ok (.num (.float (F64.ofInt (2 ^ 64)))) ∧
    decodeEv (tokNum (.jflt ⟨true, 7⟩)) = .ok (.num (.float ⟨true, 7⟩)) ∧
    decodeEv (tokNum (.jflt ⟨false, 0⟩)) = .ok .null :=
  ⟨c5_numeric_policy.1 5 (by decide) (by decide),
   c5_numeric_policy.2.1 (-3) (by decide) (by decide),
   c5_numeric_policy.2.2.1 (2 ^ 64) (Or.inl (by decide)),
   c5_numeric_policy.2.2.2.1 ⟨true, 7⟩ rfl,
   c5_numeric_policy.2.2.2.2 ⟨false, 0⟩ rfl⟩

/-! Claim C2: the zero-copy property. -/


mutual
theorem aliasEv : ∀ (buf : List Nat) (e : Ev) (v : Val), evBorrowedOnly e →
    evWF buf e → decodeEv e = .ok v → valAliases buf v
  | _, .evNull, _, _, _, h => by cases h; trivial
  | _, .evBool _, _, _, _, h => by cases h; trivial
  | _, .evI64 _, _, _, _, h => by cases h; trivial
  | _, .evU64 _, _, _, _, h => by cases h; trivial
  | _, .evF64 f, _, _, _, h => by
    simp only [decodeEv] at h
    cases hf : numberFromF64 f with
    | some m => simp only [hf] at h; cases h; trivial
    | none => simp only [hf] at h; cases h; trivial
  | buf, .evStr (.borrowed off len s), v, _, hwf, h => by
    cases h
    exact hwf
  | _, .evStr (.copiedStr _), _, hb, _, _ => False.elim hb
  | _, .evStr (.copiedBytes _), _, hb, _, _ => False.elim hb
  | buf, .evBytes off len bs, v, _, hwf, h => by
    cases h
    exact hwf
  | buf, .evArr xs, v, hb, hwf, h => by
    simp only [decodeEv] at h
    cases hl : decodeList xs with
    | ok l =>
      simp only [hl] at h
      cases h
      exact aliasList buf xs l hb hwf hl
    | err e => simp [hl] at h
    | panicked => simp [hl] at h
  | buf, .evObj .nil, v, _, _, h => by cases h; trivial
  | buf, .evObj (.cons k ve rest), v, hb, hwf, h => by
    have hb' : tokBorrowed k ∧ evBorrowedOnly ve ∧ evEntriesBorrowedOnly rest := hb
    have hwf' : tokWFStr buf k ∧ evWF buf ve ∧ evEntriesWF buf rest := hwf
    cases k with
    | borrowed off len s =>
      simp only [decodeEv, classifyKey] at h
      cases hv : decodeEv ve with
      | ok v1 =>
        simp only [hv] at h
        have hal1 : valAliases buf v1 := aliasEv buf ve v1 hb'.2.1 hwf'.2.1 hv
        have hmap : ventriesAliases buf (mapIns .nil ⟨off, len, s⟩ v1) :=
          ventriesAliases_mapIns trivial hwf'.1 hal1
        exact aliasEntries buf rest (mapIns .nil ⟨off, len, s⟩ v1) v hb'.2.2 hwf'.2.2 hmap h
      | err e => simp [hv] at h
      | panicked => simp [hv] at h
    | copiedStr s => exact False.elim hb'.1
    | copiedBytes bs => exact False.elim hb'.1
theorem aliasList : ∀ (buf : List Nat) (xs : EvList) (l : VList),
    evListBorrowedOnly xs → evListWF buf xs → decodeList xs = .ok l →
    vlistAliases buf l
  | _, .nil, _, _, _, h => by cases h; trivial
  | buf, .cons e tl, l, hb, hwf, h => by
    have hb' : evBorrowedOnly e ∧ evListBorrowedOnly tl := hb
    have hwf' : evWF buf e ∧ evListWF buf tl := hwf
    simp only [decodeList] at h
    cases hv : decodeEv e with
    | ok v =>
      simp only [hv] at h
      cases hl : decodeList tl with
      | ok l2 =>
        simp only [hl] at h
        cases h
        exact ⟨aliasEv buf e v hb'.1 hwf'.1 hv, aliasList buf tl l2 hb'.2 hwf'.2 hl⟩
      | err e2 => simp [hl] at h
      | panicked => simp [hl] at h
    | err e2 => simp [hv] at h
    | panicked => simp [hv] at h
theorem aliasEntries : ∀ (buf : List Nat) (es : EvEntries) (m : VEntries) (v : Val),
    evEntriesBorrowedOnly es → evEntriesWF buf es → ventriesAliases buf m →
    decodeEntries m es = .ok v → valAliases buf v
  | _, .nil, m, v, _, _, hm, h => by cases h; exact hm
  | buf, .cons k ve rest, m, v, hb, hwf, hm, h => by
    have hb' : tokBorrowed k ∧ evBorrowedOnly ve ∧ evEntriesBorrowedOnly rest := hb
    have hwf' : tokWFStr buf k ∧ evWF buf ve ∧ evEntriesWF buf rest := hwf
    cases k with
    | borrowed off len s =>
      simp only [decodeEntries, borrowKeyStr] at h
      cases hv : decodeEv ve with
      | ok v1 =>
        simp only [hv] at h
        have hal1 : valAliases buf v1 := aliasEv buf ve v1 hb'.2.1 hwf'.2.1 hv
        have hmap : ventriesAliases buf (mapIns m ⟨off, len, s⟩ v1) :=
          ventriesAliases_mapIns hm hwf'.1 hal1
        exact aliasEntries buf rest (mapIns m ⟨off, len, s⟩ v1) v hb'.2.2 hwf'.2.2 hmap h
      | err e => simp [hv] at h
      | panicked => simp [hv] at h
    | copiedStr s => exact False.elim hb'.1
    | copiedBytes bs => exact False.elim hb'.1
end

/-- C2: when every string token of the parse is borrowed (no escape
    sequences anywhere), every `String`/`Bytes` leaf and object key of the
    decoded tree is a sub-range of the input buffer itself, with no owned
    copy anywhere in the tree; and a string token that required unescaping
    arrives as transient bytes and decodes to an independently allocated
    `OwnedString` holding exactly the decoded text. -/
theorem c2_zero_copy_and_owned_fallback :
    (∀ (buf : List Nat) (e : Ev) (v : Val), evBorrowedOnly e → evWF buf e →
      decodeEv e = .ok v → valAliases buf v) ∧
    (∀ s : String,
      decodeEv (.evStr (.copiedBytes (utf8Encode s.data))) = .ok (.ownedString s)) := by
  constructor
  · exact fun buf e v hb hwf h => aliasEv buf e v hb hwf h
  · intro s
    simp only [decodeEv, utf8LossyStr]
    rw [lossyAux_encode s.data _ le_rfl]

/-- C2 witness: the document bytes of `\x7b"a":"xy"\x7d` with the key borrowed at
    offset 2 and the value at offset 6; the decoded tree aliases both
    ranges; and the escaped token for "a\nb" falls back to an owned copy
    with the decoded content. -/
theorem c2_witness :
    valAliases [123, 34, 97, 34, 58, 34, 120, 121, 34, 125]
      (.object (.cons ⟨2, 1, "a"⟩ (.str ⟨6, 2, "xy"⟩) .nil)) ∧
    decodeEv (.evStr (.copiedBytes (utf8Encode "a\nb".data))) =
      .ok (.ownedString "a\nb") :=
  ⟨c2_zero_copy_and_owned_fallback.1
      [123, 34, 97, 34, 58, 34, 120, 121, 34, 125]
      (.evObj (.cons (.borrowed 2 1 "a") (.evStr (.borrowed 6 2 "xy")) .nil))
      (.object (.cons ⟨2, 1, "a"⟩ (.str ⟨6, 2, "xy"⟩) .nil))
      ⟨trivial, trivial, trivial⟩
      ⟨⟨by decide, by decide⟩, ⟨by decide, by decide⟩, trivial⟩
      (by decide),
    c2_zero_copy_and_owned_fallback.2 "a\nb"⟩

/-! Claim C9: borrowed-only object keys. -/


theorem tokNum_decodes (n : JNum) : ∃ v, decodeEv (tokNum n) = .ok v := by
  cases n with
  | jint i =>
    rw [tokNum]
    split
    · exact ⟨_, rfl⟩
    split
    · exact ⟨_, rfl⟩
    · exact ⟨.num (.float (F64.ofInt i)), by simp [decodeEv, numberFromF64, F64.ofInt]⟩
  | jflt f =>
    rw [tokNum]
    cases hf : numberFromF64 f with
    | some m => exact ⟨.num m, by simp [decodeEv, hf]⟩
    | none => exact ⟨.null, by simp [decodeEv, hf]⟩

mutual
theorem cleanEv : ∀ d : JDoc, ¬hasEscKey d → ∃ v, decodeEv (tokN d) = .ok v
  | .dnull, _ => ⟨.null, rfl⟩
  | .dbool b, _ => ⟨.bool b, rfl⟩
  | .dnum n, _ => tokNum_decodes n
  | .dstr s esc, _ => by
    cases esc
    · exact ⟨_, rfl⟩
    · exact ⟨_, rfl⟩
  | .darr xs, hne => by
    obtain ⟨l, hl⟩ := cleanList xs hne
    exact ⟨.array l, by simp [tokN, decodeEv, hl]⟩
  | .dobj .nil, _ => ⟨.object .nil, rfl⟩
  | .dobj (.cons k esc v tl), hne => by
    have hne' : ¬(esc = true ∨ hasEscKey v ∨ dentriesHasEscKey tl) := hne
    have hesc : esc = false := by
      cases esc
      · rfl
      · exact absurd (Or.inl rfl) hne'
    subst hesc
    obtain ⟨v1, hv1⟩ := cleanEv v (fun hv => hne' (Or.inr (Or.inl hv)))
    obtain ⟨v2, hv2⟩ :=
      cleanEntries tl (mapIns .nil ⟨0, (utf8Encode k.data).length, k⟩ v1)
        (fun ht => hne' (Or.inr (Or.inr ht)))
    refine ⟨v2, ?_⟩
    simp only [tokN, tokNEntries, if_neg (by simp : ¬false = true), decodeEv,
      classifyKey, hv1]
    exact hv2
theorem cleanList : ∀ xs : DList, ¬hasEscKey (.darr xs) →
    ∃ l, decodeList (tokNList xs) = .ok l
  | .nil, _ => ⟨.nil, rfl⟩
  | .cons d tl, hne => by
    have hne' : ¬(hasEscKey d ∨ dlistHasEscKey tl) := hne
    obtain ⟨v, hv⟩ := cleanEv d (fun hd => hne' (Or.inl hd))
    obtain ⟨l, hl⟩ := cleanList tl (fun ht => hne' (Or.inr ht))
    exact ⟨.cons v l, by simp [tokNList, decodeList, hv, hl]⟩
theorem cleanEntries : ∀ (kvs : DEntries) (m : VEntries), ¬dentriesHasEscKey kvs →
    ∃ v, decodeEntries m (tokNEntries kvs) = .ok v
  | .nil, m, _ => ⟨.object m, rfl⟩
  | .cons k esc v tl, m, hne => by
    have hne' : ¬(esc = true ∨ hasEscKey v ∨ dentriesHasEscKey tl) := hne
    have hesc : esc = false := by
      cases esc
      · rfl
      · exact absurd (Or.inl rfl) hne'
    subst hesc
    obtain ⟨v1, hv1⟩ := cleanEv v (fun hv => hne' (Or.inr (Or.inl hv)))
    obtain ⟨v2, hv2⟩ :=
      cleanEntries tl (mapIns m ⟨0, (utf8Encode k.data).length, k⟩ v1)
        (fun ht => hne' (Or.inr (Or.inr ht)))
    refine ⟨v2, ?_⟩
    simp only [tokNEntries, if_neg (by simp : ¬false = true), decodeEntries,
      borrowKeyStr, hv1]
    exact hv2
theorem escEv : ∀ d : JDoc, hasEscKey d → ∃ e, decodeEv (tokN d) = .err e
  | .dnull, h => False.elim h
  | .dbool _, h => False.elim h
  | .dnum _, h => False.elim h
  | .dstr _ _, h => False.elim h
  | .darr xs, h => by
    obtain ⟨e, he⟩ := escList xs h
    exact ⟨e, by simp [tokN, decodeEv, he]⟩
  | .dobj .nil, h => False.elim h
  | .dobj (.cons k esc v tl), h => by
    have h' : esc = true ∨ hasEscKey v ∨ dentriesHasEscKey tl := h
    by_cases hesc : esc = true
    · subst hesc
      exact ⟨.invalidType "a string key",
        by simp [tokN, tokNEntries, decodeEv, classifyKey, invalidTypeErr,
          keyClassifierExpecting]⟩
    · have hesc' : esc = false := by
        cases esc
        · rfl
        · exact absurd rfl hesc
      subst hesc'
      by_cases hv : hasEscKey v
      · obtain ⟨e, he⟩ := escEv v hv
        exact ⟨e, by simp [tokN, tokNEntries, if_neg (by simp : ¬false = true),
          decodeEv, classifyKey, he]⟩
      · have htl : dentriesHasEscKey tl := by
          rcases h' with h1 | h1 | h1
          · exact absurd h1 (by simp)
          · exact absurd h1 hv
          · exact h1
        obtain ⟨v1, hv1⟩ := cleanEv v hv
        obtain ⟨e, he⟩ :=
          escEntries tl (mapIns .nil ⟨0, (utf8Encode k.data).length, k⟩ v1) htl
        refine ⟨e, ?_⟩
        simp only [tokN, tokNEntries, if_neg (by simp : ¬false = true), decodeEv,
          classifyKey, hv1]
        exact he
theorem escList : ∀ xs : DList, dlistHasEscKey xs →
    ∃ e, decodeList (tokNList xs) = .err e
  | .nil, h => False.elim h
  | .cons d tl, h => by
    have h' : hasEscKey d ∨ dlistHasEscKey tl := h
    by_cases hd : hasEscKey d
    · obtain ⟨e, he⟩ := escEv d hd
      exact ⟨e, by simp [tokNList, decodeList, he]⟩
    · have htl : dlistHasEscKey tl := h'.resolve_left hd
      obtain ⟨v, hv⟩ := cleanEv d hd
      obtain ⟨e, he⟩ := escList tl htl
      exact ⟨e, by simp [tokNList, decodeList, hv, he]⟩
theorem escEntries : ∀ (kvs : DEntries) (m : VEntries), dentriesHasEscKey kvs →
    ∃ e, decodeEntries m (tokNEntries kvs) = .err e
  | .nil, _, h => False.elim h
  | .cons k esc v tl, m, h => by
    have h' : esc = true ∨ hasEscKey v ∨ dentriesHasEscKey tl := h
    by_cases hesc : esc = true
    · subst hesc
      exact ⟨.invalidType "a borrowed string",
        by simp [tokNEntries, decodeEntries, borrowKeyStr]⟩
    · have hesc' : esc = false := by
        cases esc
        · rfl
        · exact absurd rfl hesc
      subst hesc'
      by_cases hv : hasEscKey v
      · obtain ⟨e, he⟩ := escEv v hv
        exact ⟨e, by simp [tokNEntries, if_neg (by simp : ¬false = true),
          decodeEntries, borrowKeyStr, he]⟩
      · have htl : dentriesHasEscKey tl := by
          rcases h' with h1 | h1 | h1
          · exact absurd h1 (by simp)
          · exact absurd h1 hv
          · exact h1
        obtain ⟨v1, hv1⟩ := cleanEv v hv
        obtain ⟨e, he⟩ :=
          escEntries tl (mapIns m ⟨0, (utf8Encode k.data).length, k⟩ v1) htl
        refine ⟨e, ?_⟩
        simp only [tokNEntries, if_neg (by simp : ¬false = true), decodeEntries,
          borrowKeyStr, hv1]
        exact he
end

/-- C9: object keys have no owned-copy fallback. `KeyClassifier` and the
    `&str` key path of `next_entry` reject every non-borrowed key token
    with an error, so decoding any document containing an object key with
    an escape sequence fails with a `DecodeError` (and never produces an
    owned key). -/
theorem c9_escaped_keys_rejected :
    (∀ s, classifyKey (.copiedStr s) = .err (.invalidType "a string key")) ∧
    (∀ bs, classifyKey (.copiedBytes bs) = .err (.invalidType "a string key")) ∧
    (∀ s, borrowKeyStr (.copiedStr s) = .err (.invalidType "a borrowed string")) ∧
    (∀ bs, borrowKeyStr (.copiedBytes bs) = .err (.invalidType "a borrowed string")) ∧
    (∀ d : JDoc, hasEscKey d → ∃ e, decodeEv (tokN d) = .err e) :=
  ⟨fun _ => rfl, fun _ => rfl, fun _ => rfl, fun _ => rfl, escEv⟩

/-- C9 witness: decoding the document with the escaped key, modelled after
    `\x7b"a\nb":1\x7d`, fails with an error. -/
theorem c9_witness :
    ∃ e, decodeEv (tokN (.dobj (.cons "a\nb" true (.dnum (.jint 1)) .nil))) = .err e :=
  c9_escaped_keys_rejected.2.2.2.2 (.dobj (.cons "a\nb" true (.dnum (.jint 1)) .nil))
    (Or.inl rfl)

/-! Claim C7: key-sorted emission. -/


mutual
theorem sortEv : ∀ (e : Ev) (v : Val), decodeEv e = .ok v → valSorted v
  | .evNull, _, h => by cases h; trivial
  | .evBool _, _, h => by cases h; trivial
  | .evI64 _, _, h => by cases h; trivial
  | .evU64 _, _, h => by cases h; trivial
  | .evF64 f, _, h => by
    simp only [decodeEv] at h
    cases hf : numberFromF64 f with
    | some m => simp only [hf] at h; cases h; trivial
    | none => simp only [hf] at h; cases h; trivial
  | .evStr (.borrowed _ _ _), _, h => by cases h; trivial
  | .evStr (.copiedStr _), _, h => by simp [decodeEv, invalidTypeErr, valueVisitorExpecting] at h
  | .evStr (.copiedBytes _), _, h => by cases h; trivial
  | .evBytes _ _ _, _, h => by cases h; trivial
  | .evArr xs, v, h => by
    simp only [decodeEv] at h
    cases hl : decodeList xs with
    | ok l =>
      simp only [hl] at h
      cases h
      exact sortList xs l hl
    | err e => simp [hl] at h
    | panicked => simp [hl] at h
  | .evObj .nil, _, h => by cases h; exact ⟨trivial, trivial⟩
  | .evObj (.cons k ve rest), v, h => by
    cases k with
    | borrowed off len s =>
      simp only [decodeEv, classifyKey] at h
      cases hv : decodeEv ve with
      | ok v1 =>
        simp only [hv] at h
        have hs1 : valSorted v1 := sortEv ve v1 hv
        exact sortEntries rest (mapIns .nil ⟨off, len, s⟩ v1) v
          (sortedV_mapIns trivial) (ventriesSorted_mapIns trivial hs1) h
      | err e => simp [hv] at h
      | panicked => simp [hv] at h
    | copiedStr s => simp [decodeEv, classifyKey, invalidTypeErr, keyClassifierExpecting] at h
    | copiedBytes bs => simp [decodeEv, classifyKey, invalidTypeErr, keyClassifierExpecting] at h
theorem sortList : ∀ (xs : EvList) (l : VList), decodeList xs = .ok l → vlistSorted l
  | .nil, _, h => by cases h; trivial
  | .cons e tl, l, h => by
    simp only [decodeList] at h
    cases hv : decodeEv e with
    | ok v =>
      simp only [hv] at h
      cases hl : decodeList tl with
      | ok l2 =>
        simp only [hl] at h
        cases h
        exact ⟨sortEv e v hv, sortList tl l2 hl⟩
      | err e2 => simp [hl] at h
      | panicked => simp [hl] at h
    | err e2 => simp [hv] at h
    | panicked => simp [hv] at h
theorem sortEntries : ∀ (es : EvEntries) (m : VEntries) (v : Val), sortedV m →
    ventriesSorted m → decodeEntries m es = .ok v → valSorted v
  | .nil, m, v, hs, hvs, h => by cases h; exact ⟨hs, hvs⟩
  | .cons k ve rest, m, v, hs, hvs, h => by
    cases k with
    | borrowed off len s =>
      simp only [decodeEntries, borrowKeyStr] at h
      cases hv : decodeEv ve with
      | ok v1 =>
        simp only [hv] at h
        have hs1 : valSorted v1 := sortEv ve v1 hv
        exact sortEntries rest (mapIns m ⟨off, len, s⟩ v1) v
          (sortedV_mapIns hs) (ventriesSorted_mapIns hvs hs1) h
      | err e => simp [hv] at h
      | panicked => simp [hv] at h
    | copiedStr s => simp [decodeEntries, borrowKeyStr] at h
    | copiedBytes bs => simp [decodeEntries, borrowKeyStr] at h
end

theorem encKeysGt : ∀ {m : VEntries} {s : String} {es : DEntries},
    allKeyGtV s m → encodeEntries m = .ok es → allKeyGtD s es
  | .nil, _, es, _, h => by cases h; trivial
  | .cons k v tl, s, es, hgt, h => by
    simp only [encodeEntries] at h
    cases hd : encodeDoc v with
    | ok d =>
      simp only [hd] at h
      cases hl : encodeEntries tl with
      | ok l =>
        simp only [hl] at h
        cases h
        exact ⟨hgt.1, encKeysGt hgt.2 hl⟩
      | error e => simp [hl] at h
    | error e => simp [hd] at h

mutual
theorem encSortEv : ∀ (v : Val) (d : JDoc), valSorted v → encodeDoc v = .ok d →
    docObjSorted d
  | .null, _, _, h => by cases h; trivial
  | .bool _, _, _, h => by cases h; trivial
  | .num _, _, _, h => by cases h; trivial
  | .bytes _ _ bs, d, _, h => by
    simp only [encodeDoc] at h
    cases hu : utf8Dec? bs with
    | some cs => simp only [hu] at h; cases h; trivial
    | none => simp [hu] at h
  | .str _, _, _, h => by cases h; trivial
  | .ownedString _, _, _, h => by cases h; trivial
  | .array xs, d, hv, h => by
    simp only [encodeDoc] at h
    cases hl : encodeList xs with
    | ok l =>
      simp only [hl] at h
      cases h
      exact encSortList xs l hv hl
    | error e => simp [hl] at h
  | .object m, d, hv, h => by
    simp only [encodeDoc] at h
    cases he : encodeEntries m with
    | ok es =>
      simp only [he] at h
      cases h
      exact encSortEntries m es hv.1 hv.2 he
    | error e => simp [he] at h
theorem encSortList : ∀ (xs : VList) (l : DList), vlistSorted xs →
    encodeList xs = .ok l → dlistObjSorted l
  | .nil, _, _, h => by cases h; trivial
  | .cons v tl, l, hv, h => by
    simp only [encodeList] at h
    cases hd : encodeDoc v with
    | ok d =>
      simp only [hd] at h
      cases hl : encodeList tl with
      | ok l2 =>
        simp only [hl] at h
        cases h
        exact ⟨encSortEv v d hv.1 hd, encSortList tl l2 hv.2 hl⟩
      | error e => simp [hl] at h
    | error e => simp [hd] at h
theorem encSortEntries : ∀ (m : VEntries) (es : DEntries), sortedV m →
    ventriesSorted m → encodeEntries m = .ok es → sortedD es ∧ dentriesObjSorted es
  | .nil, _, _, _, h => by cases h; exact ⟨trivial, trivial⟩
  | .cons k v tl, es, hs, hvs, h => by
    simp only [encodeEntries] at h
    cases hd : encodeDoc v with
    | ok d =>
      simp only [hd] at h
      cases hl : encodeEntries tl with
      | ok l =>
        simp only [hl] at h
        cases h
        obtain ⟨hl1, hl2⟩ := encSortEntries tl l hs.2 hvs.2 hl
        exact ⟨⟨encKeysGt hs.1 hl, hl1⟩, encSortEv v d hvs.1 hd, hl2⟩
      | error e => simp [hl] at h
    | error e => simp [hd] at h
end

/-- C7: the encoder emits `Object` entries in the order the key-sorted
    backing `BTreeMap` yields them: every object in the serialization of a
    decoded value is strictly key-sorted, regardless of input entry order;
    consequently byte-for-byte round-trip equality is not guaranteed (the
    re-encoding of `\x7b"b":1,"a":2\x7d` lists "a" first), while
    JSON-semantic equality under the standard reader is preserved. -/
theorem c7_encode_emits_key_sorted :
    (∀ (e : Ev) (v : Val) (out : JDoc), decodeEv e = .ok v →
      encodeDoc v = .ok out → docObjSorted out) ∧
    (decodeEv (tokN (.dobj (.cons "b" false (.dnum (.jint 1))
        (.cons "a" false (.dnum (.jint 2)) .nil)))) =
      .ok (.object (.cons ⟨0, 1, "a"⟩ (.num (.posInt 2))
        (.cons ⟨0, 1, "b"⟩ (.num (.posInt 1)) .nil))) ∧
     encodeDoc (.object (.cons ⟨0, 1, "a"⟩ (.num (.posInt 2))
        (.cons ⟨0, 1, "b"⟩ (.num (.posInt 1)) .nil))) =
      .ok (.dobj (.cons "a" false (.dnum (.jint 2))
        (.cons "b" false (.dnum (.jint 1)) .nil))) ∧
     (.dobj (.cons "a" false (.dnum (.jint 2))
        (.cons "b" false (.dnum (.jint 1)) .nil)) : JDoc) ≠
      .dobj (.cons "b" false (.dnum (.jint 1))
        (.cons "a" false (.dnum (.jint 2)) .nil)) ∧
     readDoc (.dobj (.cons "a" false (.dnum (.jint 2))
        (.cons "b" false (.dnum (.jint 1)) .nil))) =
      readDoc (.dobj (.cons "b" false (.dnum (.jint 1))
        (.cons "a" false (.dnum (.jint 2)) .nil)))) := by
  constructor
  · intro e v out hdec henc
    exact encSortEv v out (sortEv e v hdec) henc
  · exact ⟨by decide, by decide, by decide, by decide⟩

/-- C7 witness: the general sorted-emission statement applied to the
    decode/encode run of the document `\x7b"b":1,"a":2\x7d`. -/
theorem c7_witness :
    docObjSorted (.dobj (.cons "a" false (.dnum (.jint 2))
      (.cons "b" false (.dnum (.jint 1)) .nil))) :=
  c7_encode_emits_key_sorted.1
    (tokN (.dobj (.cons "b" false (.dnum (.jint 1))
      (.cons "a" false (.dnum (.jint 2)) .nil))))
    (.object (.cons ⟨0, 1, "a"⟩ (.num (.posInt 2))
      (.cons ⟨0, 1, "b"⟩ (.num (.posInt 1)) .nil)))
    (.dobj (.cons "a" false (.dnum (.jint 2))
      (.cons "b" false (.dnum (.jint 1)) .nil)))
    (by decide) (by decide)

/-! Claim C1: the decode/encode semantic round trip. -/


theorem corrIns {m : VEntries} {l : DEntries} {k : BStr} {v : Val} {ov j : JDoc}
    (hc : Corr m l) (henc : encodeDoc v = .ok ov) (hrd : readDoc ov = j) :
    Corr (mapIns m k v) (rIns l k.s j) := by
  induction hc with
  | nil => exact Corr.cons k v .nil j ov .nil henc hrd Corr.nil
  | cons k1 v1 m1 j1 ov1 l1 henc1 hrd1 hc1 ih =>
    by_cases h1 : ltStr k.s k1.s = true
    · rw [mapIns, if_pos h1, rIns, if_pos h1]
      exact Corr.cons k v _ j ov _ henc hrd (Corr.cons k1 v1 m1 j1 ov1 l1 henc1 hrd1 hc1)
    · rw [Bool.not_eq_true] at h1
      by_cases h2 : ltStr k1.s k.s = true
      · rw [mapIns, if_neg (by simp [h1]), if_pos h2,
           rIns, if_neg (by simp [h1]), if_pos h2]
        exact Corr.cons k1 v1 _ j1 ov1 _ henc1 hrd1 ih
      · rw [Bool.not_eq_true] at h2
        rw [mapIns, if_neg (by simp [h1]), if_neg (by simp [h2]),
           rIns, if_neg (by simp [h1]), if_neg (by simp [h2])]
        exact Corr.cons k1 v m1 j ov l1 henc hrd hc1

theorem corrEnc {m : VEntries} {l : DEntries} (hc : Corr m l) :
    ∃ es, encodeEntries m = .ok es ∧ ∀ acc, readEntries acc es = insFoldD acc l := by
  induction hc with
  | nil => exact ⟨.nil, rfl, fun acc => rfl⟩
  | cons k1 v1 m1 j1 ov1 l1 henc1 hrd1 hc1 ih =>
    obtain ⟨es1, hese, hfold⟩ := ih
    refine ⟨.cons k1.s false ov1 es1, ?_, ?_⟩
    · simp [encodeEntries, henc1, hese]
    · intro acc
      show readEntries (rIns acc k1.s (readDoc ov1)) es1 = _
      rw [hrd1, hfold]
      rfl

theorem corrFlags {m : VEntries} {l : DEntries} (hc : Corr m l) : escFlagsFalse l := by
  induction hc with
  | nil => trivial
  | cons k1 v1 m1 j1 ov1 l1 henc1 hrd1 hc1 ih => exact ⟨rfl, ih⟩

theorem keysBelow_mono : ∀ {acc : DEntries} {s t : String}, keysBelow acc s →
    ltStr s t = true → keysBelow acc t
  | .nil, _, _, _, _ => trivial
  | .cons _ _ _ _, _, _, hb, hlt => ⟨ltStr_trans hb.1 hlt, keysBelow_mono hb.2 hlt⟩

theorem keysBelow_appD : ∀ {a b : DEntries} {s : String}, keysBelow a s →
    keysBelow b s → keysBelow (appD a b) s
  | .nil, _, _, _, hb => hb
  | .cons _ _ _ _, _, _, ha, hb => ⟨ha.1, keysBelow_appD ha.2 hb⟩

theorem rIns_append : ∀ {acc : DEntries} {s : String} {j : JDoc}, keysBelow acc s →
    rIns acc s j = appD acc (.cons s false j .nil)
  | .nil, _, _, _ => rfl
  | .cons k1 e1 v1 tl, s, j, hb => by
    rw [rIns, if_neg (by simp [ltStr_asymm hb.1]), if_pos hb.1, appD]
    rw [rIns_append hb.2]

theorem appD_nil_right : ∀ a : DEntries, appD a .nil = a
  | .nil => rfl
  | .cons k e v tl => by rw [appD, appD_nil_right tl]

theorem appD_assoc : ∀ (a b c : DEntries), appD (appD a b) c = appD a (appD b c)
  | .nil, _, _ => rfl
  | .cons k e v tl, b, c => by
    rw [appD, appD, appD, appD_assoc tl b c]

theorem keysBelowAll_nil : ∀ l : DEntries, keysBelowAll .nil l
  | .nil => trivial
  | .cons _ _ _ tl => ⟨trivial, keysBelowAll_nil tl⟩

theorem keysBelowAll_push : ∀ {tl acc : DEntries} {k : String} {v : JDoc},
    allKeyGtD k tl → keysBelowAll acc tl →
    keysBelowAll (appD acc (.cons k false v .nil)) tl
  | .nil, _, _, _, _, _ => trivial
  | .cons _ _ _ _, _, _, _, hgt, hall =>
    ⟨keysBelow_appD hall.1 ⟨hgt.1, trivial⟩,
     keysBelowAll_push hgt.2 hall.2⟩

theorem insFoldD_eq_appD : ∀ (l acc : DEntries), sortedD l → escFlagsFalse l →
    keysBelowAll acc l → insFoldD acc l = appD acc l
  | .nil, acc, _, _, _ => (appD_nil_right acc).symm
  | .cons k e v tl, acc, hs, hf, hb => by
    have he : e = false := hf.1
    subst he
    rw [insFoldD, rIns_append hb.1,
        insFoldD_eq_appD tl _ hs.2 hf.2 (keysBelowAll_push hs.1 hb.2),
        appD_assoc]
    rfl

theorem rtNum (n : JNum) : ∀ v, decodeEv (tokNum n) = .ok v →
    ∃ out, encodeDoc v = .ok out ∧ readDoc out = readNum n := by
  cases n with
  | jint i =>
    intro v h
    rw [tokNum] at h
    by_cases h1 : 0 ≤ i ∧ i < 2 ^ 64
    · rw [if_pos h1] at h
      cases h
      refine ⟨.dnum (.jint i.toNat), rfl, ?_⟩
      show readNum (.jint (i.toNat : Int)) = readNum (.jint i)
      rw [Int.toNat_of_nonneg h1.1]
    · rw [if_neg h1] at h
      by_cases h2 : -(2 ^ 63) ≤ i ∧ i < 0
      · rw [if_pos h2] at h
        cases h
        refine ⟨.dnum (.jint i), ?_, ?_⟩
        · show Except.ok (JDoc.dnum (jnumOfNumber (numberOfI64 i))) =
              Except.ok (JDoc.dnum (JNum.jint i))
          rw [numberOfI64, if_pos h2.2]
          rfl
        · rfl
      · rw [if_neg h2] at h
        have hsome : decodeEv (.evF64 (F64.ofInt i)) = .ok (.num (.float (F64.ofInt i))) := rfl
        rw [hsome] at h
        cases h
        refine ⟨.dnum (.jflt (F64.ofInt i)), rfl, ?_⟩
        show readNum (.jflt (F64.ofInt i)) = readNum (.jint i)
        simp only [readNum, if_neg h1, if_neg h2, numberFromF64, F64.ofInt]
        rfl
  | jflt f =>
    intro v h
    rw [tokNum, decodeEv] at h
    cases hf : numberFromF64 f with
    | some m =>
      rw [hf] at h
      cases h
      have hfin : f.finite = true := by
        by_cases hb : f.finite = true
        · exact hb
        · rw [numberFromF64, if_neg (by simp [hb])] at hf
          exact Option.noConfusion hf
      have hm : m = .float f := by
        rw [numberFromF64, if_pos hfin] at hf
        exact (Option.some.inj hf).symm
      subst hm
      refine ⟨.dnum (.jflt f), rfl, ?_⟩
      show readNum (.jflt f) = readNum (.jflt f)
      rfl
    | none =>
      rw [hf] at h
      cases h
      refine ⟨.dnull, rfl, ?_⟩
      show JDoc.dnull = readNum (.jflt f)
      simp only [readNum, hf]


mutual
theorem rtEv : ∀ (d : JDoc) (v : Val), decodeEv (tokN d) = .ok v →
    ∃ out, encodeDoc v = .ok out ∧ readDoc out = readDoc d
  | .dnull, v, h => by cases h; exact ⟨.dnull, rfl, rfl⟩
  | .dbool b, v, h => by cases h; exact ⟨.dbool b, rfl, rfl⟩
  | .dnum n, v, h => rtNum n v h
  | .dstr s false, v, h => by cases h; exact ⟨.dstr s false, rfl, rfl⟩
  | .dstr s true, v, h => by
    cases h
    refine ⟨.dstr (utf8LossyStr (utf8Encode s.data)) false, rfl, ?_⟩
    rw [utf8LossyStr_encode]
    rfl
  | .darr xs, v, h => by
    have h1 : (match decodeList (tokNList xs) with
      | .ok l => DOut.ok (Val.array l)
      | .err e => DOut.err e
      | .panicked => DOut.panicked) = .ok v := h
    cases hl : decodeList (tokNList xs) with
    | ok l =>
      rw [hl] at h1
      have h2 : DOut.ok (Val.array l) = DOut.ok v := h1
      cases h2
      obtain ⟨outs, houts, hrl⟩ := rtList xs l hl
      refine ⟨.darr outs, ?_, ?_⟩
      · show (match encodeList l with
          | .ok l2 => Except.ok (JDoc.darr l2)
          | .error e => Except.error e) = Except.ok (JDoc.darr outs)
        rw [houts]
      · show JDoc.darr (readList outs) = JDoc.darr (readList xs)
        rw [hrl]
    | err e =>
      rw [hl] at h1
      exact DOut.noConfusion h1
    | panicked =>
      rw [hl] at h1
      exact DOut.noConfusion h1
  | .dobj .nil, v, h => by cases h; exact ⟨.dobj .nil, rfl, rfl⟩
  | .dobj (.cons k false dv tl), v, h => by
    have h1 : (match decodeEv (tokN dv) with
      | .ok v1 => decodeEntries
          (mapIns .nil ⟨0, (utf8Encode k.data).length, k⟩ v1) (tokNEntries tl)
      | .err e => DOut.err e
      | .panicked => DOut.panicked) = .ok v := h
    cases hv1 : decodeEv (tokN dv) with
    | ok v1 =>
      rw [hv1] at h1
      have h2 : decodeEntries
          (mapIns .nil ⟨0, (utf8Encode k.data).length, k⟩ v1) (tokNEntries tl) =
          .ok v := h1
      obtain ⟨ov, hov, hrov⟩ := rtEv dv v1 hv1
      obtain ⟨out, hout, hrd⟩ := rtEntries tl
        (mapIns .nil ⟨0, (utf8Encode k.data).length, k⟩ v1)
        (rIns .nil k (readDoc dv)) v
        (corrIns Corr.nil hov hrov) (sortedD_rIns trivial) h2
      exact ⟨out, hout, hrd⟩
    | err e =>
      rw [hv1] at h1
      exact DOut.noConfusion h1
    | panicked =>
      rw [hv1] at h1
      exact DOut.noConfusion h1
  | .dobj (.cons k true dv tl), v, h => by
    have h1 : DOut.err (DErr.invalidType "a string key") = DOut.ok v := h
    exact DOut.noConfusion h1
theorem rtList : ∀ (xs : DList) (l : VList), decodeList (tokNList xs) = .ok l →
    ∃ outs, encodeList l = .ok outs ∧ readList outs = readList xs
  | .nil, l, h => by cases h; exact ⟨.nil, rfl, rfl⟩
  | .cons d tl, l, h => by
    have h1 : (match decodeEv (tokN d) with
      | .ok v => (match decodeList (tokNList tl) with
        | .ok l2 => DOut.ok (VList.cons v l2)
        | .err e => DOut.err e
        | .panicked => DOut.panicked)
      | .err e => DOut.err e
      | .panicked => DOut.panicked) = .ok l := h
    cases hv : decodeEv (tokN d) with
    | ok v =>
      rw [hv] at h1
      have h2 : (match decodeList (tokNList tl) with
        | .ok l2 => DOut.ok (VList.cons v l2)
        | .err e => DOut.err e
        | .panicked => DOut.panicked) = .ok l := h1
      cases hl : decodeList (tokNList tl) with
      | ok l2 =>
        rw [hl] at h2
        have h3 : DOut.ok (VList.cons v l2) = DOut.ok l := h2
        cases h3
        obtain ⟨ov, hov, hrov⟩ := rtEv d v hv
        obtain ⟨outs, houts, hrl⟩ := rtList tl l2 hl
        refine ⟨.cons ov outs, ?_, ?_⟩
        · show (match encodeDoc v with
            | .ok d2 => (match encodeList l2 with
              | .ok l3 => Except.ok (DList.cons d2 l3)
              | .error e => Except.error e)
            | .error e => Except.error e) = Except.ok (DList.cons ov outs)
          rw [hov, houts]
        · show DList.cons (readDoc ov) (readList outs) =
            DList.cons (readDoc d) (readList tl)
          rw [hrov, hrl]
      | err e =>
        rw [hl] at h2
        exact DOut.noConfusion h2
      | panicked =>
        rw [hl] at h2
        exact DOut.noConfusion h2
    | err e =>
      rw [hv] at h1
      exact DOut.noConfusion h1
    | panicked =>
      rw [hv] at h1
      exact DOut.noConfusion h1
theorem rtEntries : ∀ (kvs : DEntries) (m : VEntries) (l : DEntries) (v : Val),
    Corr m l → sortedD l → decodeEntries m (tokNEntries kvs) = .ok v →
    ∃ out, encodeDoc v = .ok out ∧ readDoc out = .dobj (readEntries l kvs)
  | .nil, m, l, v, hc, hs, h => by
    cases h
    obtain ⟨es, hese, hfold⟩ := corrEnc hc
    refine ⟨.dobj es, ?_, ?_⟩
    · show (match encodeEntries m with
        | .ok es2 => Except.ok (JDoc.dobj es2)
        | .error e => Except.error e) = Except.ok (JDoc.dobj es)
      rw [hese]
    · show JDoc.dobj (readEntries .nil es) = JDoc.dobj (readEntries l .nil)
      rw [hfold .nil,
          insFoldD_eq_appD l .nil hs (corrFlags hc) (keysBelowAll_nil l)]
      rfl
  | .cons k false dv tl, m, l, v, hc, hs, h => by
    have h1 : (match decodeEv (tokN dv) with
      | .ok v1 => decodeEntries
          (mapIns m ⟨0, (utf8Encode k.data).length, k⟩ v1) (tokNEntries tl)
      | .err e => DOut.err e
      | .panicked => DOut.panicked) = .ok v := h
    cases hv1 : decodeEv (tokN dv) with
    | ok v1 =>
      rw [hv1] at h1
      have h2 : decodeEntries
          (mapIns m ⟨0, (utf8Encode k.data).length, k⟩ v1) (tokNEntries tl) =
          .ok v := h1
      obtain ⟨ov, hov, hrov⟩ := rtEv dv v1 hv1
      obtain ⟨out, hout, hrd⟩ := rtEntries tl
        (mapIns m ⟨0, (utf8Encode k.data).length, k⟩ v1)
        (rIns l k (readDoc dv)) v
        (corrIns hc hov hrov) (sortedD_rIns hs) h2
      exact ⟨out, hout, hrd⟩
    | err e =>
      rw [hv1] at h1
      exact DOut.noConfusion h1
    | panicked =>
      rw [hv1] at h1
      exact DOut.noConfusion h1
  | .cons k true dv tl, m, l, v, hc, hs, h => by
    have h1 : DOut.err (DErr.invalidType "a borrowed string") = DOut.ok v := h
    exact DOut.noConfusion h1
end


/-- C1: for every JSON document whose decoding yields a Value tree,
    serializing that tree succeeds and the result is JSON-semantically
    equal to the original document: a standard copying reader normalizes
    both to the same value (equal object key/value sets regardless of
    entry order, equal array sequences, equal scalars), even though the
    emitted document may differ from the input in entry order and number
    formatting. -/
theorem c1_decode_encode_semantic_roundtrip (d : JDoc) (v : Val)
    (h : decodeEv (tokN d) = .ok v) :
    ∃ out, encodeDoc v = .ok out ∧ readDoc out = readDoc d :=
  rtEv d v h

/-- C1 witness: the spec's end-to-end document, modelled after
    `\x7b"id":123,"name":"John Doe"\x7d`, decoded and re-encoded. -/
theorem c1_witness :
    ∃ out,
      encodeDoc (.object (.cons ⟨0, 2, "id"⟩ (.num (.posInt 123))
        (.cons ⟨0, 4, "name"⟩ (.str ⟨0, 8, "John Doe"⟩) .nil))) = .ok out ∧
      readDoc out =
        readDoc (.dobj (.cons "id" false (.dnum (.jint 123))
          (.cons "name" false (.dstr "John Doe" false) .nil))) :=
  c1_decode_encode_semantic_roundtrip
    (.dobj (.cons "id" false (.dnum (.jint 123))
      (.cons "name" false (.dstr "John Doe" false) .nil)))
    (.object (.cons ⟨0, 2, "id"⟩ (.num (.posInt 123))
      (.cons ⟨0, 4, "name"⟩ (.str ⟨0, 8, "John Doe"⟩) .nil)))
    (by decide)

end SerdeZeroCopy
